import Mathlib

/-!
# Verification of the CherryPy compatibility layer of plugin.audio.squeezebox

Shallow embedding of `resources/lib/cherrypy/_cpcompat.py` and of `get_mac`
from `resources/lib/utils.py`.  Native strings are modelled per runtime:
on the code-point-oriented runtime (`PY3`) the native string type is the
unicode type, on the byte-oriented runtime (`PY2`) it is the byte type.
Byte strings are lists of naturals below 256, unicode strings are lists of
code points.  Fallible operations return `Except PyError`.
-/

set_option maxRecDepth 4000
set_option linter.unnecessarySeqFocus false

/-- Python exception classes raised by the embedded code, with their message. -/
inductive PyError
  | typeError (msg : String)
  | valueError (msg : String)
  | unicodeDecodeError (codec : String)
  | unicodeEncodeError (codec : String)
  | lookupError (msg : String)
  | attributeError (msg : String)
  | binasciiError (msg : String)
deriving DecidableEq, Repr

/-- Python runtime values crossing the encode/decode boundary: byte strings,
unicode strings, and two representatives of non-string values (`int`, `None`). -/
inductive PyVal
  | pyBytes (bs : List Nat)
  | pyStr (cs : List Nat)
  | pyInt (n : Int)
  | pyNone
deriving DecidableEq, Repr

instance {ε α : Type} [DecidableEq ε] [DecidableEq α] : DecidableEq (Except ε α) :=
  fun a b =>
    match a, b with
    | .ok x, .ok y => if h : x = y then .isTrue (by rw [h]) else .isFalse (by simp [h])
    | .error x, .error y =>
      if h : x = y then .isTrue (by rw [h]) else .isFalse (by simp [h])
    | .ok _, .error _ => .isFalse (by simp)
    | .error _, .ok _ => .isFalse (by simp)

/-- The encoding names passed to the embedded functions: the codecs
`ISO-8859-1`, `ascii` and `utf-8`, and the special token `'escape'`
recognised by the byte-oriented `ntou` (it is not a registered codec). -/
inductive Encoding
  | iso8859_1
  | ascii
  | utf8
  | escape
deriving DecidableEq, Repr

/-- Python decode error policies. -/
inductive ErrPolicy
  | strict
  | replace
  | ignore
deriving DecidableEq, Repr

/-- A valid Unicode scalar value: below 0x110000 and not a surrogate. -/
def validCp (c : Nat) : Prop := c < 0x110000 ∧ (c < 0xD800 ∨ 0xE000 ≤ c)

instance (c : Nat) : Decidable (validCp c) := by unfold validCp; infer_instance

/-- UTF-8 byte sequence of one code point (meaningful for `validCp` inputs). -/
def utf8EncChar (c : Nat) : List Nat :=
  if c < 0x80 then [c]
  else if c < 0x800 then [0xC0 + c / 0x40, 0x80 + c % 0x40]
  else if c < 0x10000 then [0xE0 + c / 0x1000, 0x80 + c / 0x40 % 0x40, 0x80 + c % 0x40]
  else [0xF0 + c / 0x40000, 0x80 + c / 0x1000 % 0x40, 0x80 + c / 0x40 % 0x40, 0x80 + c % 0x40]

/-- `str.encode('utf-8')` (strict): encodes each code point, rejecting
surrogates and out-of-range values. -/
def utf8Encode : List Nat → Except PyError (List Nat)
  | [] => .ok []
  | c :: cs =>
    if validCp c then (utf8Encode cs).map (utf8EncChar c ++ ·)
    else .error (.unicodeEncodeError "utf-8")

/-- A UTF-8 continuation byte. -/
def contB (b : Nat) : Prop := 0x80 ≤ b ∧ b ≤ 0xBF

instance (b : Nat) : Decidable (contB b) := by unfold contB; infer_instance

/-- How each error policy treats an invalid byte, given the decoding `r` of
the rest of the input: strict raises, replace substitutes U+FFFD, ignore
skips the byte. -/
def utf8Err (pol : ErrPolicy) (r : Except PyError (List Nat)) :
    Except PyError (List Nat) :=
  match pol with
  | .strict => .error (.unicodeDecodeError "utf-8")
  | .replace => r.map (0xFFFD :: ·)
  | .ignore => r

/-- Worker for `utf8Decode`: the fuel argument only serves structural
termination and never runs out when it starts at the input length, since
every step consumes at least one byte. -/
def utf8DecodeGo (pol : ErrPolicy) : Nat → List Nat → Except PyError (List Nat)
  | _, [] => .ok []
  | 0, _ :: _ => .ok []
  | fuel + 1, b :: bs =>
    if b < 0x80 then (utf8DecodeGo pol fuel bs).map (b :: ·)
    else if 0xC2 ≤ b ∧ b ≤ 0xDF then
      match bs with
      | b2 :: rest =>
        if contB b2 then
          (utf8DecodeGo pol fuel rest).map (((b - 0xC0) * 0x40 + (b2 - 0x80)) :: ·)
        else utf8Err pol (utf8DecodeGo pol fuel bs)
      | [] => utf8Err pol (.ok [])
    else if 0xE0 ≤ b ∧ b ≤ 0xEF then
      match bs with
      | b2 :: b3 :: rest =>
        if contB b2 ∧ contB b3 ∧ (b ≠ 0xE0 ∨ 0xA0 ≤ b2) ∧ (b ≠ 0xED ∨ b2 < 0xA0) then
          (utf8DecodeGo pol fuel rest).map
            (((b - 0xE0) * 0x1000 + (b2 - 0x80) * 0x40 + (b3 - 0x80)) :: ·)
        else utf8Err pol (utf8DecodeGo pol fuel bs)
      | [b2] => utf8Err pol (utf8DecodeGo pol fuel [b2])
      | [] => utf8Err pol (.ok [])
    else if 0xF0 ≤ b ∧ b ≤ 0xF4 then
      match bs with
      | b2 :: b3 :: b4 :: rest =>
        if contB b2 ∧ contB b3 ∧ contB b4 ∧ (b ≠ 0xF0 ∨ 0x90 ≤ b2) ∧
            (b ≠ 0xF4 ∨ b2 < 0x90) then
          (utf8DecodeGo pol fuel rest).map
            (((b - 0xF0) * 0x40000 + (b2 - 0x80) * 0x1000 + (b3 - 0x80) * 0x40 +
              (b4 - 0x80)) :: ·)
        else utf8Err pol (utf8DecodeGo pol fuel bs)
      | [b2, b3] => utf8Err pol (utf8DecodeGo pol fuel [b2, b3])
      | [b2] => utf8Err pol (utf8DecodeGo pol fuel [b2])
      | [] => utf8Err pol (.ok [])
    else utf8Err pol (utf8DecodeGo pol fuel bs)

/-- `bytes.decode('utf-8', errors)`: ASCII fast path, two- to four-byte
sequences with the usual lead/continuation constraints, and the error policy
applied at an invalid byte. -/
def utf8Decode (pol : ErrPolicy) (bs : List Nat) : Except PyError (List Nat) :=
  utf8DecodeGo pol bs.length bs

/-- `bytes.decode('ascii', errors)`. -/
def asciiDecode (pol : ErrPolicy) : List Nat → Except PyError (List Nat)
  | [] => .ok []
  | b :: bs =>
    if b < 0x80 then (asciiDecode pol bs).map (b :: ·)
    else
      match pol with
      | .strict => .error (.unicodeDecodeError "ascii")
      | .replace => (asciiDecode pol bs).map (0xFFFD :: ·)
      | .ignore => asciiDecode pol bs

/-- `bytes.decode(encoding, errors)` for the modelled encodings.  ISO-8859-1
maps each byte to the equal code point and never fails; `'escape'` is not a
registered codec, so looking it up raises `LookupError`. -/
def decodeBytes (e : Encoding) (pol : ErrPolicy) (bs : List Nat) :
    Except PyError (List Nat) :=
  match e with
  | .iso8859_1 => .ok bs
  | .ascii => asciiDecode pol bs
  | .utf8 => utf8Decode pol bs
  | .escape => .error (.lookupError "unknown encoding: escape")

/-- `str.encode(encoding)` (strict policy, as used by every call site of the
embedded module). -/
def encodeCp (e : Encoding) (cs : List Nat) : Except PyError (List Nat) :=
  match e with
  | .iso8859_1 =>
    if cs.all (fun c => decide (c < 0x100)) then .ok cs
    else .error (.unicodeEncodeError "latin-1")
  | .ascii =>
    if cs.all (fun c => decide (c < 0x80)) then .ok cs
    else .error (.unicodeEncodeError "ascii")
  | .utf8 => utf8Encode cs
  | .escape => .error (.lookupError "unknown encoding: escape")

theorem asciiDecode_ascii (pol : ErrPolicy) :
    ∀ bs : List Nat, (∀ b ∈ bs, b < 0x80) → asciiDecode pol bs = .ok bs := by
  intro bs h
  induction bs with
  | nil => rfl
  | cons b rest ih =>
    have hb : b < 0x80 := h b (by simp)
    simp only [asciiDecode, if_pos hb, ih (fun x hx => h x (by simp [hx]))]
    rfl

theorem utf8DecodeGo_ascii (pol : ErrPolicy) :
    ∀ (fuel : Nat) (bs : List Nat), bs.length ≤ fuel → (∀ b ∈ bs, b < 0x80) →
      utf8DecodeGo pol fuel bs = .ok bs := by
  intro fuel
  induction fuel with
  | zero =>
    intro bs h _
    cases bs with
    | nil => rfl
    | cons b rest => simp at h
  | succ f ih =>
    intro bs h hall
    cases bs with
    | nil => rfl
    | cons b rest =>
      have hb : b < 0x80 := hall b (by simp)
      have hr : utf8DecodeGo pol f rest = .ok rest :=
        ih rest (by simpa using Nat.le_of_succ_le_succ h)
          (fun x hx => hall x (by simp [hx]))
      simp only [utf8DecodeGo, if_pos hb, hr]
      rfl

theorem utf8Decode_ascii (pol : ErrPolicy) (bs : List Nat)
    (h : ∀ b ∈ bs, b < 0x80) : utf8Decode pol bs = .ok bs :=
  utf8DecodeGo_ascii pol bs.length bs le_rfl h

theorem decodeBytes_ascii (e : Encoding) (pol : ErrPolicy) (bs : List Nat)
    (he : e ≠ .escape) (h : ∀ b ∈ bs, b < 0x80) : decodeBytes e pol bs = .ok bs := by
  cases e with
  | iso8859_1 => rfl
  | ascii => exact asciiDecode_ascii pol bs h
  | utf8 => exact utf8Decode_ascii pol bs h
  | escape => exact absurd rfl he

theorem utf8Decode_vector_replace : utf8Decode .replace [0xE9] = .ok [0xFFFD] := by
  decide

theorem utf8Decode_vector_two_byte :
    utf8Decode .strict [0x61, 0xC3, 0xA9] = .ok [0x61, 0xE9] := by decide

theorem utf8Encode_vector_two_byte :
    utf8Encode [0x61, 0xE9] = .ok [0x61, 0xC3, 0xA9] := by decide

theorem except_map_ne_error {ε α β : Type} (f : α → β) (x : Except ε α) (e : ε)
    (h : x ≠ .error e) : x.map f ≠ .error e := by
  cases x with
  | ok v => simp [Except.map]
  | error err => simpa [Except.map] using h

/-- Alphanumeric character class of the `'escape'` regular expression in the
byte-oriented `ntou`: `[0-9a-zA-Z]`. -/
def isAlnum (c : Nat) : Prop :=
  (48 ≤ c ∧ c ≤ 57) ∨ (65 ≤ c ∧ c ≤ 90) ∨ (97 ≤ c ∧ c ≤ 122)

instance (c : Nat) : Decidable (isAlnum c) := by unfold isAlnum; infer_instance

/-- Value of a hexadecimal digit accepted by `int(-, 16)`, otherwise `none`. -/
def hexDigVal? (c : Nat) : Option Nat :=
  if 48 ≤ c ∧ c ≤ 57 then some (c - 48)
  else if 97 ≤ c ∧ c ≤ 102 then some (c - 87)
  else if 65 ≤ c ∧ c ≤ 70 then some (c - 55)
  else none

/-- Worker for `unescapeU`; fuel only serves structural termination and
never runs out when started at the input length. -/
def unescapeUGo : Nat → List Nat → Except PyError (List Nat)
  | _, [] => .ok []
  | 0, l => .ok l
  | fuel + 1, x :: xs =>
    match x, xs with
    | 92, 117 :: a :: b :: c :: d :: rest =>
      if isAlnum a ∧ isAlnum b ∧ isAlnum c ∧ isAlnum d then
        match hexDigVal? a, hexDigVal? b, hexDigVal? c, hexDigVal? d with
        | some va, some vb, some vc, some vd =>
          (unescapeUGo fuel rest).map ((((va * 16 + vb) * 16 + vc) * 16 + vd) :: ·)
        | _, _, _, _ => .error (.valueError "invalid literal for int() with base 16")
      else (unescapeUGo fuel xs).map (92 :: ·)
    | _, _ => (unescapeUGo fuel xs).map (x :: ·)

/-- The `re.sub` of the `'escape'` branch of the byte-oriented `ntou`
(lines 70-74): each occurrence of a backslash, `u` and four alphanumeric
characters is replaced by the code point `int(hhhh, 16)`; `int` raises
`ValueError` when a matched character is not a hex digit. -/
def unescapeU (bs : List Nat) : Except PyError (List Nat) :=
  unescapeUGo bs.length bs

/-- The message format of `assert_native` (line 89). -/
def nativeErrMsg (tn : String) : String :=
  "n must be a native str (got " ++ tn ++ ")"

namespace PY3

/-- `type(v).__name__` on the code-point-oriented runtime. -/
def typeName : PyVal → String
  | .pyBytes _ => "bytes"
  | .pyStr _ => "str"
  | .pyInt _ => "int"
  | .pyNone => "NoneType"

/-- `isinstance(n, str)`: on this runtime the native string type is the
unicode type. -/
def isNative : PyVal → Bool
  | .pyStr _ => true
  | _ => false

/-- `assert_native` (lines 87-89) as seen on the code-point-oriented
runtime. -/
def assert_native (n : PyVal) : Except PyError Unit :=
  if isNative n then .ok ()
  else .error (.typeError (nativeErrMsg (typeName n)))

/-- `n.encode(encoding)`: only unicode values have the attribute. -/
def pyEncode (n : PyVal) (e : Encoding) : Except PyError PyVal :=
  match n with
  | .pyStr cs => (encodeCp e cs).map PyVal.pyBytes
  | v => .error (.attributeError (typeName v))

/-- `ntob` (PY3 branch, lines 26-32): assert native, then encode. -/
def ntob (n : PyVal) (e : Encoding) : Except PyError PyVal := do
  let _ ← assert_native n
  pyEncode n e

/-- `ntou` (PY3 branch, lines 34-40): assert native, return unchanged. -/
def ntou (n : PyVal) (e : Encoding) : Except PyError PyVal := do
  let _ ← assert_native n
  match e with
  | _ => .ok n

/-- `tonative` (PY3 branch, lines 42-47): decode byte input, return
everything else unchanged; no type assertion. -/
def tonative (n : PyVal) (e : Encoding) : Except PyError PyVal :=
  match n with
  | .pyBytes bs => (decodeBytes e .strict bs).map PyVal.pyStr
  | v => .ok v

end PY3

namespace PY2

/-- `type(v).__name__` on the byte-oriented runtime. -/
def typeName : PyVal → String
  | .pyBytes _ => "str"
  | .pyStr _ => "unicode"
  | .pyInt _ => "int"
  | .pyNone => "NoneType"

/-- `isinstance(n, str)`: on this runtime the native string type is the
byte type. -/
def isNative : PyVal → Bool
  | .pyBytes _ => true
  | _ => false

/-- `assert_native` (lines 87-89) as seen on the byte-oriented runtime. -/
def assert_native (n : PyVal) : Except PyError Unit :=
  if isNative n then .ok ()
  else .error (.typeError (nativeErrMsg (typeName n)))

/-- `n.decode(encoding)`: only byte values have the attribute. -/
def pyDecode (n : PyVal) (e : Encoding) : Except PyError PyVal :=
  match n with
  | .pyBytes bs => (decodeBytes e .strict bs).map PyVal.pyStr
  | v => .error (.attributeError (typeName v))

/-- `ntob` (PY2 branch, lines 50-58): assert native, return unchanged. -/
def ntob (n : PyVal) (e : Encoding) : Except PyError PyVal := do
  let _ ← assert_native n
  match e with
  | _ => .ok n

/-- `ntou` (PY2 branch, lines 60-77): assert native; under the special
`'escape'` token, decode as ISO-8859-1 (the identity on byte values) and
substitute the backslash-u escapes; otherwise decode with the encoding. -/
def ntou (n : PyVal) (e : Encoding) : Except PyError PyVal := do
  let _ ← assert_native n
  if e = .escape then
    match n with
    | .pyBytes bs => (unescapeU bs).map PyVal.pyStr
    | v => .error (.attributeError (typeName v))
  else pyDecode n e

/-- `tonative` (PY2 branch, lines 79-84): encode unicode input, return
everything else unchanged; no type assertion. -/
def tonative (n : PyVal) (e : Encoding) : Except PyError PyVal :=
  match n with
  | .pyStr cs => (encodeCp e cs).map PyVal.pyBytes
  | v => .ok v

end PY2

theorem utf8Encode_ne_typeError (cs : List Nat) (m : String) :
    utf8Encode cs ≠ .error (.typeError m) := by
  induction cs with
  | nil => simp [utf8Encode]
  | cons c cs ih =>
    simp only [utf8Encode]
    split
    · exact except_map_ne_error _ _ _ ih
    · simp

theorem encodeCp_ne_typeError (e : Encoding) (cs : List Nat) (m : String) :
    encodeCp e cs ≠ .error (.typeError m) := by
  cases e with
  | iso8859_1 => simp only [encodeCp]; split <;> simp
  | ascii => simp only [encodeCp]; split <;> simp
  | utf8 => exact utf8Encode_ne_typeError cs m
  | escape => simp [encodeCp]

theorem utf8Err_ne_typeError (pol : ErrPolicy) (r : Except PyError (List Nat))
    (m : String) (h : r ≠ .error (.typeError m)) :
    utf8Err pol r ≠ .error (.typeError m) := by
  cases pol with
  | strict => simp [utf8Err]
  | replace => exact except_map_ne_error _ _ _ h
  | ignore => exact h

theorem utf8DecodeGo_ne_typeError (pol : ErrPolicy) (m : String) :
    ∀ (fuel : Nat) (bs : List Nat), utf8DecodeGo pol fuel bs ≠ .error (.typeError m) := by
  intro fuel
  induction fuel with
  | zero =>
    intro bs
    cases bs <;> simp [utf8DecodeGo]
  | succ f ih =>
    intro bs
    cases bs with
    | nil => simp [utf8DecodeGo]
    | cons b rest =>
      simp only [utf8DecodeGo]
      repeat' split
      all_goals
        first
        | exact except_map_ne_error _ _ _ (ih _)
        | exact utf8Err_ne_typeError _ _ _ (ih _)
        | exact utf8Err_ne_typeError _ _ _ (by simp)

theorem asciiDecode_ne_typeError (pol : ErrPolicy) (m : String) :
    ∀ bs : List Nat, asciiDecode pol bs ≠ .error (.typeError m) := by
  intro bs
  induction bs with
  | nil => simp [asciiDecode]
  | cons b rest ih =>
    simp only [asciiDecode]
    repeat' split
    all_goals
      first
      | exact except_map_ne_error _ _ _ ih
      | exact ih
      | simp

theorem decodeBytes_ne_typeError (e : Encoding) (pol : ErrPolicy) (bs : List Nat)
    (m : String) : decodeBytes e pol bs ≠ .error (.typeError m) := by
  cases e with
  | iso8859_1 => simp [decodeBytes]
  | ascii => exact asciiDecode_ne_typeError pol m bs
  | utf8 => exact utf8DecodeGo_ne_typeError pol m bs.length bs
  | escape => simp [decodeBytes]

theorem unescapeUGo_ne_typeError (m : String) :
    ∀ (fuel : Nat) (bs : List Nat), unescapeUGo fuel bs ≠ .error (.typeError m) := by
  intro fuel
  induction fuel with
  | zero =>
    intro bs
    cases bs <;> simp [unescapeUGo]
  | succ f ih =>
    intro bs
    cases bs with
    | nil => simp [unescapeUGo]
    | cons x xs =>
      simp only [unescapeUGo]
      repeat' split
      all_goals
        first
        | exact except_map_ne_error _ _ _ (ih _)
        | simp

theorem except_error_bind {ε α β : Type} (e : ε) (f : α → Except ε β) :
    Except.error e >>= f = Except.error e := rfl

theorem except_ok_bind {ε α β : Type} (a : α) (f : α → Except ε β) :
    Except.ok a >>= f = f a := rfl

/-- C2: a non-native value presented to `ntob` or `ntou` is rejected on
either runtime with a `TypeError` whose message embeds the actual type name
(third conjunct: the message decomposes around the type name); a native
value never produces a `TypeError` from either function. -/
theorem c2_assert_native_contract :
    (∀ (v : PyVal) (e : Encoding), PY3.isNative v = false →
      PY3.ntob v e = .error (.typeError (nativeErrMsg (PY3.typeName v))) ∧
      PY3.ntou v e = .error (.typeError (nativeErrMsg (PY3.typeName v)))) ∧
    (∀ (v : PyVal) (e : Encoding), PY2.isNative v = false →
      PY2.ntob v e = .error (.typeError (nativeErrMsg (PY2.typeName v))) ∧
      PY2.ntou v e = .error (.typeError (nativeErrMsg (PY2.typeName v)))) ∧
    (∀ tn : String, ∃ pre post, nativeErrMsg tn = pre ++ tn ++ post) ∧
    (∀ (v : PyVal) (e : Encoding) (m : String), PY3.isNative v = true →
      PY3.ntob v e ≠ .error (.typeError m) ∧
      PY3.ntou v e ≠ .error (.typeError m)) ∧
    (∀ (v : PyVal) (e : Encoding) (m : String), PY2.isNative v = true →
      PY2.ntob v e ≠ .error (.typeError m) ∧
      PY2.ntou v e ≠ .error (.typeError m)) := by
  refine ⟨?_, ?_, fun tn => ⟨"n must be a native str (got ", ")", rfl⟩, ?_, ?_⟩
  · intro v e h
    constructor <;>
      simp [PY3.ntob, PY3.ntou, PY3.assert_native, h, except_error_bind]
  · intro v e h
    constructor <;>
      simp [PY2.ntob, PY2.ntou, PY2.assert_native, h, except_error_bind]
  · intro v e m h
    cases v with
    | pyStr cs =>
      constructor
      · simpa [PY3.ntob, PY3.assert_native, PY3.isNative, PY3.pyEncode, except_ok_bind]
          using except_map_ne_error PyVal.pyBytes _ _ (encodeCp_ne_typeError e cs m)
      · simp [PY3.ntou, PY3.assert_native, PY3.isNative, except_ok_bind]
    | pyBytes bs => simp [PY3.isNative] at h
    | pyInt n => simp [PY3.isNative] at h
    | pyNone => simp [PY3.isNative] at h
  · intro v e m h
    cases v with
    | pyBytes bs =>
      constructor
      · simp [PY2.ntob, PY2.assert_native, PY2.isNative, except_ok_bind]
      · by_cases he : e = .escape
        · subst he
          simpa [PY2.ntou, PY2.assert_native, PY2.isNative, unescapeU, except_ok_bind]
            using except_map_ne_error PyVal.pyStr _ _
              (unescapeUGo_ne_typeError m bs.length bs)
        · simpa [PY2.ntou, PY2.assert_native, PY2.isNative, PY2.pyDecode, he,
            except_ok_bind]
            using except_map_ne_error PyVal.pyStr _ _
              (decodeBytes_ne_typeError e .strict bs m)
    | pyStr cs => simp [PY2.isNative] at h
    | pyInt n => simp [PY2.isNative] at h
    | pyNone => simp [PY2.isNative] at h

/-- Witness for C2 at concrete inputs: an `int` rejected by the
code-point-oriented `ntob`, `None` rejected by the byte-oriented `ntou`, and
a native string passing `ntob` without a `TypeError`. -/
theorem c2_witness :
    PY3.ntob (.pyInt 7) .utf8 =
      .error (.typeError (nativeErrMsg (PY3.typeName (.pyInt 7)))) ∧
    PY2.ntou .pyNone .iso8859_1 =
      .error (.typeError (nativeErrMsg (PY2.typeName .pyNone))) ∧
    PY3.ntob (.pyStr [97]) .utf8 ≠ .error (.typeError "boom") :=
  ⟨(c2_assert_native_contract.1 (.pyInt 7) .utf8 rfl).1,
   (c2_assert_native_contract.2.1 .pyNone .iso8859_1 rfl).1,
   (c2_assert_native_contract.2.2.2.1 (.pyStr [97]) .utf8 "boom" rfl).1⟩

/-- C10: `tonative` performs no type assertion: a value that is neither the
byte type nor the text type is returned unchanged by both runtime variants. -/
theorem c10_tonative_no_assertion (v : PyVal) (e : Encoding)
    (hb : ∀ bs, v ≠ .pyBytes bs) (hs : ∀ cs, v ≠ .pyStr cs) :
    PY3.tonative v e = .ok v ∧ PY2.tonative v e = .ok v := by
  cases v with
  | pyBytes bs => exact absurd rfl (hb bs)
  | pyStr cs => exact absurd rfl (hs cs)
  | pyInt n => exact ⟨rfl, rfl⟩
  | pyNone => exact ⟨rfl, rfl⟩

/-- Witness for C10: an integer flows through `tonative` unchanged on both
runtimes. -/
theorem c10_witness :
    PY3.tonative (.pyInt 5) .iso8859_1 = .ok (.pyInt 5) ∧
    PY2.tonative (.pyInt 5) .iso8859_1 = .ok (.pyInt 5) :=
  c10_tonative_no_assertion (.pyInt 5) .iso8859_1
    (fun _ h => PyVal.noConfusion h) (fun _ h => PyVal.noConfusion h)

/-- C1 is false on the code-point-oriented runtime: `ntob` of the native
string "a" yields a byte string, which `ntou` rejects with a `TypeError`,
while `tonative` of "a" returns "a"; the two sides differ. -/
theorem c1_counterexample :
    PY3.ntob (.pyStr [97]) .iso8859_1 = .ok (.pyBytes [97]) ∧
    PY3.ntou (.pyBytes [97]) .iso8859_1 =
      .error (.typeError "n must be a native str (got bytes)") ∧
    PY3.tonative (.pyStr [97]) .iso8859_1 = .ok (.pyStr [97]) ∧
    PY3.ntou (.pyBytes [97]) .iso8859_1 ≠ PY3.tonative (.pyStr [97]) .iso8859_1 := by
  refine ⟨rfl, rfl, rfl, ?_⟩
  decide

/-- C1 as amended: on the code-point-oriented runtime, whenever `ntob`
succeeds on a native string its output is a byte string, which `ntou`
rejects with the native-string `TypeError` instead of completing the claimed
round trip; the equality with `tonative` holds for `ntou` applied to the
native string itself. -/
theorem c1_amended (s : List Nat) (e : Encoding) (b : PyVal)
    (h : PY3.ntob (.pyStr s) e = .ok b) :
    PY3.ntou b e = .error (.typeError (nativeErrMsg "bytes")) ∧
    PY3.ntou (.pyStr s) e = PY3.tonative (.pyStr s) e := by
  have hb : ∃ bs, b = .pyBytes bs := by
    simp only [PY3.ntob, PY3.assert_native, PY3.isNative, if_pos, except_ok_bind,
      PY3.pyEncode] at h
    cases he : encodeCp e s with
    | ok v =>
      rw [he] at h
      simp only [Except.map] at h
      exact ⟨v, (Except.ok.inj h).symm⟩
    | error err =>
      rw [he] at h
      simp [Except.map] at h
  obtain ⟨bs, rfl⟩ := hb
  exact ⟨rfl, rfl⟩

/-- Witness for the amended C1 at the native string "a" under ISO-8859-1. -/
theorem c1_amended_witness :
    PY3.ntou (.pyBytes [97]) .iso8859_1 = .error (.typeError (nativeErrMsg "bytes")) ∧
    PY3.ntou (.pyStr [97]) .iso8859_1 = PY3.tonative (.pyStr [97]) .iso8859_1 :=
  c1_amended [97] .iso8859_1 (.pyBytes [97]) (by decide)

/-- Value of a base64 alphabet character, `none` for non-alphabet bytes
(which the binascii primitive skips). -/
def b64Val? (c : Nat) : Option Nat :=
  if 65 ≤ c ∧ c ≤ 90 then some (c - 65)
  else if 97 ≤ c ∧ c ≤ 122 then some (c - 97 + 26)
  else if 48 ≤ c ∧ c ≤ 57 then some (c - 48 + 52)
  else if c = 43 then some 62
  else if c = 47 then some 63
  else none

/-- Regroup a run of sextets into bytes: full quads give three bytes, a
trailing triple two, a trailing pair one, and a single leftover sextet is a
padding error. -/
def b64Quads : List Nat → Except PyError (List Nat)
  | [] => .ok []
  | [_] => .error (.binasciiError "Invalid base64-encoded string")
  | [a, b] => .ok [a * 4 + b / 16]
  | [a, b, c] => .ok [a * 4 + b / 16, b % 16 * 16 + c / 4]
  | a :: b :: c :: d :: rest =>
    (b64Quads rest).map
      (fun r => (a * 4 + b / 16) :: (b % 16 * 16 + c / 4) :: (c % 4 * 64 + d) :: r)

/-- The resolved base64 primitive (`decodebytes`/`decodestring`, bound at
lines 91-98): drop non-alphabet bytes (including padding) and regroup the
sextets. -/
def b64DecodeBytes (bs : List Nat) : Except PyError (List Nat) :=
  b64Quads (bs.filterMap b64Val?)

namespace PY3

/-- `base64_decode` (lines 101-111) on the code-point-oriented runtime:
text input is first encoded with `encoding`; since the native string type is
the text type, the decoded bytes are re-coerced by decoding with
`encoding`. -/
def base64_decode (n : PyVal) (e : Encoding) : Except PyError PyVal :=
  match n with
  | .pyStr cs => do
    let b ← encodeCp e cs
    let d ← b64DecodeBytes b
    (decodeBytes e .strict d).map PyVal.pyStr
  | .pyBytes bs => do
    let d ← b64DecodeBytes bs
    (decodeBytes e .strict d).map PyVal.pyStr
  | v => .error (.typeError (typeName v))

end PY3

namespace PY2

/-- `base64_decode` (lines 101-111) on the byte-oriented runtime: text input
is first encoded with `encoding`; the native string type is the byte type,
so the decoded bytes are returned raw. -/
def base64_decode (n : PyVal) (e : Encoding) : Except PyError PyVal :=
  match n with
  | .pyStr cs => do
    let b ← encodeCp e cs
    (b64DecodeBytes b).map PyVal.pyBytes
  | .pyBytes bs => (b64DecodeBytes bs).map PyVal.pyBytes
  | v => .error (.typeError (typeName v))

end PY2

/-- C7: `base64_decode` accepts the text form and the byte form of the same
logical payload (text is encoded with the given encoding first) and treats
both identically; the decoded content is re-coerced to text with the given
encoding on the code-point-oriented runtime and returned as raw bytes on the
byte-oriented one. -/
theorem c7_base64_decode (s bs : List Nat) (e : Encoding)
    (h : encodeCp e s = .ok bs) :
    PY3.base64_decode (.pyStr s) e = PY3.base64_decode (.pyBytes bs) e ∧
    PY2.base64_decode (.pyStr s) e = PY2.base64_decode (.pyBytes bs) e ∧
    (∀ d, b64DecodeBytes bs = .ok d →
      PY3.base64_decode (.pyBytes bs) e = (decodeBytes e .strict d).map PyVal.pyStr ∧
      PY2.base64_decode (.pyBytes bs) e = .ok (.pyBytes d)) := by
  refine ⟨?_, ?_, ?_⟩
  · simp [PY3.base64_decode, h, except_ok_bind]
  · simp [PY2.base64_decode, h, except_ok_bind]
  · intro d hd
    constructor
    · simp [PY3.base64_decode, hd, except_ok_bind]
    · simp [PY2.base64_decode, hd, Except.map]

/-- Witness for C7: the payload "YWJj" (base64 of "abc") as text and as
bytes under ISO-8859-1. -/
theorem c7_witness :
    PY3.base64_decode (.pyStr [89, 87, 74, 106]) .iso8859_1 =
      PY3.base64_decode (.pyBytes [89, 87, 74, 106]) .iso8859_1 ∧
    PY2.base64_decode (.pyStr [89, 87, 74, 106]) .iso8859_1 =
      PY2.base64_decode (.pyBytes [89, 87, 74, 106]) .iso8859_1 ∧
    PY3.base64_decode (.pyBytes [89, 87, 74, 106]) .iso8859_1 =
      (decodeBytes .iso8859_1 .strict [97, 98, 99]).map PyVal.pyStr ∧
    PY2.base64_decode (.pyBytes [89, 87, 74, 106]) .iso8859_1 =
      .ok (.pyBytes [97, 98, 99]) := by
  have h := c7_base64_decode [89, 87, 74, 106] [89, 87, 74, 106] .iso8859_1 (by decide)
  exact ⟨h.1, h.2.1, (h.2.2 [97, 98, 99] (by decide)).1, (h.2.2 [97, 98, 99] (by decide)).2⟩

/-- The `atom.replace('+', ' ')` step shared by both `unquote_qs` variants
(lines 207 and 215). -/
def plusToSpace (s : List Nat) : List Nat :=
  s.map (fun c => if c = 43 then 32 else c)

/-- Split on the percent character, mirroring `string.split('%')`. -/
def splitOnPct : List Nat → List (List Nat)
  | [] => [[]]
  | c :: rest =>
    let r := splitOnPct rest
    if c = 37 then [] :: r
    else
      match r with
      | h :: t => (c :: h) :: t
      | [] => [[c]]

/-- One split item after a percent sign: when it opens with two hex digits
(the keys of the hex-to-byte table, upper or lower case) the digits become a
byte, otherwise the literal percent is kept. -/
def pctItem (item : List Nat) : List Nat :=
  match item with
  | a :: b :: tail =>
    match hexDigVal? a, hexDigVal? b with
    | some va, some vb => (va * 16 + vb) :: tail
    | _, _ => 37 :: item
  | _ => 37 :: item

/-- `unquote_to_bytes` of the percent-aware split: the piece before the
first percent, then each item percent-decoded. -/
def unquoteToBytes (bs : List Nat) : List Nat :=
  match splitOnPct bs with
  | [] => []
  | first :: rest => first ++ rest.flatMap pctItem

/-- The split of the input into alternating non-ASCII and ASCII segments
performed by the encoding-aware unquote: the result always has odd length
`[n0, a1, n1, ..., ak, nk]` with the `ai` the maximal ASCII runs. -/
def splitRuns : List Nat → List (List Nat)
  | [] => [[]]
  | c :: rest =>
    let r := splitRuns rest
    if c < 128 then
      match r with
      | n0 :: a1 :: t =>
        if n0 = [] then [] :: (c :: a1) :: t else [] :: [c] :: n0 :: a1 :: t
      | other => [] :: [c] :: other
    else
      match r with
      | n0 :: t => (c :: n0) :: t
      | [] => [[c]]

/-- The loop of the encoding-aware unquote: non-ASCII segments pass through
unchanged, each ASCII run is percent-decoded to bytes and then decoded with
the encoding and errors policy. -/
def runsDecode (e : Encoding) (pol : ErrPolicy) :
    List (List Nat) → Except PyError (List Nat)
  | [] => .ok []
  | [n] => .ok n
  | n :: a :: rest => do
    let d ← decodeBytes e pol (unquoteToBytes a)
    let t ← runsDecode e pol rest
    .ok (n ++ d ++ t)

/-- The runtime unquote primitive with an encoding argument (bound on
line 203): inputs without a percent sign are returned unchanged and never
decoded; otherwise the ASCII runs are percent-decoded and decoded with the
encoding/errors policy. -/
def unquote3 (s : List Nat) (e : Encoding) (pol : ErrPolicy) :
    Except PyError (List Nat) :=
  if 37 ∈ s then runsDecode e pol (splitRuns s) else .ok s

/-- The runtime unquote primitive without an encoding argument (bound on
line 212): pure percent-to-byte substitution on the byte string. -/
def unquote2 (s : List Nat) : List Nat :=
  match splitOnPct s with
  | [] => []
  | first :: rest => first ++ rest.flatMap pctItem

/-- `unquote_qs` (PY3 variant, lines 205-209): replace `+` by space, then
unquote with encoding/errors. -/
def unquote_qs3 (atom : List Nat) (e : Encoding) (pol : ErrPolicy) :
    Except PyError (List Nat) :=
  unquote3 (plusToSpace atom) e pol

/-- `unquote_qs` (PY2 variant, lines 214-215): replace `+` by space,
percent-unescape, then decode the bytes with encoding/errors. -/
def unquote_qs2 (atom : List Nat) (e : Encoding) (pol : ErrPolicy) :
    Except PyError (List Nat) :=
  decodeBytes e pol (unquote2 (plusToSpace atom))

/-- C5: `unquote_qs` first turns every literal `+` into a space and then
percent-decodes with the given encoding and errors policy (stated for both
variants, last two conjuncts); in particular "a+b%20c" under UTF-8 becomes
"a b c" in both variants. -/
theorem c5_unquote_qs :
    unquote_qs3 [97, 43, 98, 37, 50, 48, 99] .utf8 .strict =
      .ok [97, 32, 98, 32, 99] ∧
    unquote_qs2 [97, 43, 98, 37, 50, 48, 99] .utf8 .strict =
      .ok [97, 32, 98, 32, 99] ∧
    (∀ atom e pol, unquote_qs3 atom e pol = unquote3 (plusToSpace atom) e pol) ∧
    (∀ atom e pol,
      unquote_qs2 atom e pol = decodeBytes e pol (unquote2 (plusToSpace atom))) :=
  ⟨by decide, by decide, fun _ _ _ => rfl, fun _ _ _ => rfl⟩

/-- C6 is false: for the one-character non-ASCII atom 0xE9 under UTF-8 with
the replace policy, the encoding-aware variant returns the character
unchanged (no percent sign, early return before any decoding) while the
manual-decode variant decodes the raw byte and yields U+FFFD. -/
theorem c6_counterexample :
    unquote_qs3 [233] .utf8 .replace = .ok [233] ∧
    unquote_qs2 [233] .utf8 .replace = .ok [65533] ∧
    unquote_qs3 [233] .utf8 .replace ≠ unquote_qs2 [233] .utf8 .replace := by
  decide

theorem splitOnPct_no_pct : ∀ s : List Nat, 37 ∉ s → splitOnPct s = [s] := by
  intro s
  induction s with
  | nil => intro _; rfl
  | cons c rest ih =>
    intro h
    have hc : ¬ c = 37 := fun e => h (by simp [e])
    simp only [splitOnPct, ih (fun hm => h (by simp [hm])), if_neg hc]

theorem splitRuns_all_ascii :
    ∀ s : List Nat, s ≠ [] → (∀ c ∈ s, c < 128) → splitRuns s = [[], s, []] := by
  intro s
  induction s with
  | nil => intro h; exact absurd rfl h
  | cons c rest ih =>
    intro _ hall
    have hc : c < 128 := hall c (by simp)
    cases rest with
    | nil => simp [splitRuns, hc]
    | cons c2 rest2 =>
      have hrec := ih (by simp) (fun x hx => hall x (by simp [hx]))
      rw [splitRuns, hrec]
      simp [hc]

/-- C6 as amended: the two `unquote_qs` variants agree on every atom made of
ASCII characters, for every real codec and errors policy; atoms with
non-ASCII characters may differ because the encoding-aware variant leaves
them un-decoded while the manual variant decodes the whole byte string. -/
theorem c6_amended (atom : List Nat) (e : Encoding) (pol : ErrPolicy)
    (he : e ≠ .escape) (h : ∀ c ∈ atom, c < 128) :
    unquote_qs3 atom e pol = unquote_qs2 atom e pol := by
  have hsa : ∀ c ∈ plusToSpace atom, c < 128 := by
    intro c hc
    simp only [plusToSpace, List.mem_map] at hc
    obtain ⟨x, hx, rfl⟩ := hc
    have := h x hx
    split <;> omega
  show unquote3 (plusToSpace atom) e pol = decodeBytes e pol (unquote2 (plusToSpace atom))
  generalize hg : plusToSpace atom = s at hsa
  clear hg h
  unfold unquote3
  by_cases hp : 37 ∈ s
  · have hne : s ≠ [] := by
      intro h0
      rw [h0] at hp
      simp at hp
    rw [if_pos hp, splitRuns_all_ascii s hne hsa]
    show (do
      let d ← decodeBytes e pol (unquoteToBytes s)
      let t ← runsDecode e pol [[]]
      .ok (([] : List Nat) ++ d ++ t)) = _
    have h2 : unquote2 s = unquoteToBytes s := rfl
    cases hd : decodeBytes e pol (unquoteToBytes s) with
    | ok d => simp [hd, except_ok_bind, runsDecode, h2]
    | error err => simp [hd, except_error_bind, h2]
  · rw [if_neg hp]
    have h2 : unquote2 s = s := by
      unfold unquote2
      rw [splitOnPct_no_pct s hp]
      simp
    rw [h2, decodeBytes_ascii e pol s he hsa]

/-- Witness for the amended C6 at the ASCII atom "a+b%20c" under UTF-8,
strict. -/
theorem c6_amended_witness :
    unquote_qs3 [97, 43, 98, 37, 50, 48, 99] .utf8 .strict =
      unquote_qs2 [97, 43, 98, 37, 50, 48, 99] .utf8 .strict :=
  c6_amended [97, 43, 98, 37, 50, 48, 99] .utf8 .strict
    (by decide) (by decide)

/-- Lowercase hexadecimal digit of a value below 16. -/
def hexDig (d : Nat) : Nat := if d < 10 then 48 + d else 87 + d

/-- `binascii.hexlify`: two lowercase hex digits per byte. -/
def hexlify (bs : List Nat) : List Nat :=
  bs.flatMap (fun b => [hexDig (b / 16), hexDig (b % 16)])

/-- `random20` (lines 258-259): hex-encode the 20 entropy bytes and decode
the digits as ASCII; the entropy source is a parameter. -/
def random20 (entropy : List Nat) : Except PyError (List Nat) :=
  decodeBytes .ascii .strict (hexlify entropy)

/-- A lowercase hexadecimal digit character. -/
def isLowerHexDigit (c : Nat) : Prop := (48 ≤ c ∧ c ≤ 57) ∨ (97 ≤ c ∧ c ≤ 102)

theorem hexDig_lower_hex {d : Nat} (h : d < 16) : isLowerHexDigit (hexDig d) := by
  unfold hexDig isLowerHexDigit
  split <;> omega

theorem hexlify_length : ∀ bs : List Nat, (hexlify bs).length = 2 * bs.length := by
  intro bs
  induction bs with
  | nil => rfl
  | cons b rest ih =>
    simp only [hexlify, List.flatMap_cons, List.length_append] at *
    simp [ih]
    omega

/-- C9: for a 20-byte entropy read, `random20` succeeds and returns exactly
the hex encoding of those bytes decoded as ASCII: 40 characters, each a
lowercase hexadecimal digit. -/
theorem c9_random20 (bs : List Nat) (h1 : bs.length = 20)
    (h2 : ∀ b ∈ bs, b < 256) :
    random20 bs = .ok (hexlify bs) ∧ (hexlify bs).length = 40 ∧
    (∀ c ∈ hexlify bs, isLowerHexDigit c) := by
  have hhex : ∀ c ∈ hexlify bs, isLowerHexDigit c := by
    intro c hc
    simp only [hexlify, List.mem_flatMap] at hc
    obtain ⟨b, hb, hc⟩ := hc
    have hb256 : b < 256 := h2 b hb
    simp only [List.mem_cons, List.not_mem_nil, or_false] at hc
    rcases hc with rfl | rfl
    · exact hexDig_lower_hex (by omega)
    · exact hexDig_lower_hex (by omega)
  refine ⟨?_, ?_, hhex⟩
  · exact decodeBytes_ascii .ascii .strict (hexlify bs) (by simp)
      (fun c hc => by rcases hhex c hc with ⟨_, h⟩ | ⟨_, h⟩ <;> omega)
  · rw [hexlify_length, h1]

/-- Witness for C9 at the all-zero 20-byte entropy read. -/
theorem c9_witness :
    random20 (List.replicate 20 0) = .ok (hexlify (List.replicate 20 0)) ∧
    (hexlify (List.replicate 20 0)).length = 40 ∧
    (∀ c ∈ hexlify (List.replicate 20 0), isLowerHexDigit c) :=
  c9_random20 (List.replicate 20 0) (by decide) (by decide)

/-- `str.lower` on the ASCII range, as applied to the info-label reading. -/
def toLowerCp (c : Nat) : Nat := if 65 ≤ c ∧ c ≤ 90 then c + 32 else c

/-- Lower-case an entire reading. -/
def lowerStr (s : List Nat) : List Nat := s.map toLowerCp

/-- The `while ":" not in mac and count < 360` loop of `get_mac`
(utils.py lines 43-56) over an abstract poll source `f` giving the reading
of each attempt; returns the final `mac` and `count`.  The fuel argument
only serves structural termination: the `count < 360` guard stops the loop
before fuel 361 can run out. -/
def get_mac_go (f : Nat → List Nat) : Nat → List Nat → Nat → List Nat × Nat
  | 0, mac, count => (mac, count)
  | fuel + 1, mac, count =>
    if 58 ∉ mac ∧ count < 360 then
      get_mac_go f fuel (lowerStr (f count)) (count + 1)
    else (mac, count)

/-- `get_mac`: the value returned after the polling loop. -/
def get_mac (f : Nat → List Nat) : List Nat := (get_mac_go f 361 [] 0).1

/-- Number of polls `get_mac` performed (the final `count`). -/
def get_mac_polls (f : Nat → List Nat) : Nat := (get_mac_go f 361 [] 0).2

theorem get_mac_go_spec (f : Nat → List Nat) :
    ∀ (fuel count : Nat) (mac : List Nat), count ≤ 360 → 360 - count < fuel →
      count ≤ (get_mac_go f fuel mac count).2 ∧
      (get_mac_go f fuel mac count).2 ≤ 360 ∧
      ((58 ∈ mac ∨ count = 360) → get_mac_go f fuel mac count = (mac, count)) ∧
      ((58 ∉ mac ∧ count < 360) →
        1 ≤ (get_mac_go f fuel mac count).2 ∧
        (get_mac_go f fuel mac count).1 =
          lowerStr (f ((get_mac_go f fuel mac count).2 - 1)) ∧
        (58 ∈ (get_mac_go f fuel mac count).1 ∨
          (get_mac_go f fuel mac count).2 = 360)) := by
  intro fuel
  induction fuel with
  | zero => intro count mac h1 h2; omega
  | succ fl ih =>
    intro count mac h1 h2
    by_cases hc : 58 ∉ mac ∧ count < 360
    · have hstep : get_mac_go f (fl + 1) mac count =
          get_mac_go f fl (lowerStr (f count)) (count + 1) := by
        simp only [get_mac_go, if_pos hc]
      have IH := ih (count + 1) (lowerStr (f count)) (by omega) (by omega)
      rw [hstep]
      by_cases hc2 : 58 ∉ lowerStr (f count) ∧ count + 1 < 360
      · have h4 := IH.2.2.2 hc2
        exact ⟨by omega, IH.2.1, fun hst => h4.2.2.elim
            (fun hm => absurd (IH.2.2.1 (Or.inl (by
              exact absurd hst (by push_neg; exact ⟨hc.1, by omega⟩)))) (by
                intro _; exact absurd hst (by push_neg; exact ⟨hc.1, by omega⟩)))
            (fun _ => absurd hst (by push_neg; exact ⟨hc.1, by omega⟩)),
          fun _ => ⟨h4.1, h4.2.1, h4.2.2⟩⟩
      · have hdone : 58 ∈ lowerStr (f count) ∨ count + 1 = 360 := by
          rcases not_and_or.mp hc2 with h | h
          · exact Or.inl (not_not.mp h)
          · exact Or.inr (by omega)
        have hr := IH.2.2.1 hdone
        rw [hr]
        refine ⟨by omega, by omega, ?_, ?_⟩
        · intro hst
          exact absurd hst (by push_neg; exact ⟨hc.1, by omega⟩)
        · intro _
          exact ⟨by omega, by simp, hdone⟩
    · have hstep : get_mac_go f (fl + 1) mac count = (mac, count) := by
        simp only [get_mac_go, if_neg hc]
      rw [hstep]
      refine ⟨le_rfl, h1, fun _ => rfl, fun hrun => absurd hrun hc⟩

/-- C8 is false in its timeout clause: a source that always reads "x"
(no colon, nonempty) exhausts the 360 attempts, yet `get_mac` returns "x",
not the empty string. -/
theorem c8_counterexample :
    get_mac (fun _ => [120]) = [120] ∧ get_mac (fun _ => [120]) ≠ [] := by
  constructor <;> decide

/-- C8 as amended: the loop polls between 1 and 360 times, so it always
terminates; the returned value is the lower-cased final reading; and either
that value contains a colon (a detected address, returned lower-cased) or
all 360 attempts were used, in which case the lower-cased 360th reading is
returned, which is empty only when that reading is empty. -/
theorem c8_amended (f : Nat → List Nat) :
    1 ≤ get_mac_polls f ∧ get_mac_polls f ≤ 360 ∧
    get_mac f = lowerStr (f (get_mac_polls f - 1)) ∧
    (58 ∈ get_mac f ∨ get_mac_polls f = 360) := by
  have h := get_mac_go_spec f 361 0 [] (by omega) (by omega)
  have h4 := h.2.2.2 ⟨by simp, by omega⟩
  exact ⟨h4.1, h.2.1, h4.2.1, h4.2.2⟩

/-- JSON values exchanged with the resolved JSON backend.  Numbers are
modelled as integers (the backend also supports floats, which a shallow
embedding does not model). -/
inductive JVal
  | jnull
  | jbool (b : Bool)
  | jint (n : Int)
  | jstr (s : List Nat)
  | jarr (xs : List JVal)
  | jobj (kvs : List (List Nat × JVal))

/-- A JSON value whose strings hold only valid Unicode scalar values. -/
inductive ValidJ : JVal → Prop
  | vnull : ValidJ .jnull
  | vbool (b : Bool) : ValidJ (.jbool b)
  | vint (n : Int) : ValidJ (.jint n)
  | vstr (s : List Nat) : (∀ c ∈ s, validCp c) → ValidJ (.jstr s)
  | varr (xs : List JVal) : (∀ x ∈ xs, ValidJ x) → ValidJ (.jarr xs)
  | vobj (kvs : List (List Nat × JVal)) :
      (∀ kv ∈ kvs, ∀ c ∈ kv.1, validCp c) → (∀ kv ∈ kvs, ValidJ kv.2) →
      ValidJ (.jobj kvs)

/-- `json_decode` as bound when no JSON backend is available
(lines 232-233): every call raises `ValueError` at call time. -/
def json_decode_nobackend (_arg : List Nat) : Except PyError JVal :=
  .error (.valueError "No JSON library is available")

/-- `_json_encode` as bound when no JSON backend is available
(lines 235-236); with `json` unset, `json_encode` is this very function
(line 245): every call raises `ValueError` at call time. -/
def json_encode_nobackend (_arg : JVal) : Except PyError (List (List Nat)) :=
  .error (.valueError "No JSON library is available")

/-- C4: with no JSON backend, both bound JSON functions fail on every
argument with the "no JSON library" `ValueError` at call time (the bindings
themselves are totally defined), and never return a value. -/
theorem c4_no_backend :
    (∀ s, json_decode_nobackend s =
      .error (.valueError "No JSON library is available")) ∧
    (∀ v, json_encode_nobackend v =
      .error (.valueError "No JSON library is available")) ∧
    (∀ s r, json_decode_nobackend s ≠ .ok r) ∧
    (∀ v r, json_encode_nobackend v ≠ .ok r) :=
  ⟨fun _ => rfl, fun _ => rfl, fun _ _ h => Except.noConfusion h,
   fun _ _ h => Except.noConfusion h⟩

/-- Four lowercase hex digits, as in the backend's `\uXXXX` escapes. -/
def hex4 (n : Nat) : List Nat :=
  [hexDig (n / 4096 % 16), hexDig (n / 256 % 16), hexDig (n / 16 % 16),
    hexDig (n % 16)]

/-- The `ensure_ascii` escaping of one string character by the backend
encoder: two-character escapes for the usual controls, backslash and quote,
`\uXXXX` (a surrogate pair above the basic plane) for every other character
outside 0x20-0x7E, and the character itself otherwise. -/
def escChar (c : Nat) : List Nat :=
  if c = 34 then [92, 34]
  else if c = 92 then [92, 92]
  else if c = 8 then [92, 98]
  else if c = 9 then [92, 116]
  else if c = 10 then [92, 110]
  else if c = 12 then [92, 102]
  else if c = 13 then [92, 114]
  else if c < 32 ∨ 127 ≤ c then
    if c < 0x10000 then [92, 117] ++ hex4 c
    else
      [92, 117] ++ hex4 (0xD800 + (c - 0x10000) / 0x400) ++
        ([92, 117] ++ hex4 (0xDC00 + (c - 0x10000) % 0x400))
  else [c]

/-- Escaped body of a string literal. -/
def escStr (s : List Nat) : List Nat := s.flatMap escChar

/-- A serialized string literal. -/
def serStr (s : List Nat) : List Nat := 34 :: (escStr s ++ [34])

/-- Decimal digits of a natural number, most significant first; fuel only
serves structural termination and never runs out when started at the
number itself. -/
def natDigitsGo : Nat → Nat → List Nat
  | 0, n => [48 + n % 10]
  | fuel + 1, n =>
    if n < 10 then [48 + n] else natDigitsGo fuel (n / 10) ++ [48 + n % 10]

/-- Decimal digits of a natural number. -/
def natDigits (n : Nat) : List Nat := natDigitsGo n n

/-- The backend encoder's integer representation. -/
def serInt (n : Int) : List Nat :=
  if n < 0 then 45 :: natDigits (-n).toNat else natDigits n.toNat

mutual

/-- Model of the backend's `JSONEncoder().iterencode` with its default
configuration (`ensure_ascii` on, separators ", " and ": "): the stream of
fragments whose concatenation is the serialization of the value. -/
def iterenc : JVal → List (List Nat)
  | .jnull => [[110, 117, 108, 108]]
  | .jbool true => [[116, 114, 117, 101]]
  | .jbool false => [[102, 97, 108, 115, 101]]
  | .jint n => [serInt n]
  | .jstr s => [serStr s]
  | .jarr [] => [[91, 93]]
  | .jarr (x :: xs) => [[91]] ++ iterencArr x xs ++ [[93]]
  | .jobj [] => [[123, 125]]
  | .jobj (kv :: kvs) => [[123]] ++ iterencObj kv kvs ++ [[125]]
termination_by v => sizeOf v

/-- Fragments of a nonempty array body. -/
def iterencArr : JVal → List JVal → List (List Nat)
  | x, [] => iterenc x
  | x, y :: xs => iterenc x ++ ([[44, 32]] ++ iterencArr y xs)
termination_by x xs => sizeOf x + sizeOf xs

/-- Fragments of a nonempty object body. -/
def iterencObj : (List Nat × JVal) → List (List Nat × JVal) → List (List Nat)
  | kv, [] => [serStr kv.1 ++ [58, 32]] ++ iterenc kv.2
  | kv, kv2 :: kvs =>
    [serStr kv.1 ++ [58, 32]] ++ iterenc kv.2 ++ ([[44, 32]] ++ iterencObj kv2 kvs)
termination_by kv kvs => sizeOf kv + sizeOf kvs
decreasing_by
  all_goals rcases kv with ⟨k, v⟩
  all_goals simp
  all_goals omega

end

/-- The serialization of a value: the concatenation of its fragments. -/
def ser (v : JVal) : List Nat := (iterenc v).flatten

/-- Concatenation of a nonempty array body's fragments. -/
def serArr (x : JVal) (xs : List JVal) : List Nat := (iterencArr x xs).flatten

/-- Concatenation of a nonempty object body's fragments. -/
def serObj (kv : List Nat × JVal) (kvs : List (List Nat × JVal)) : List Nat :=
  (iterencObj kv kvs).flatten

/-- `json_encode` (lines 241-243, code-point-oriented runtime with a
backend): each fragment yielded by the backend encoder is encoded to UTF-8
bytes before being yielded. -/
def json_encode (v : JVal) : List (Except PyError (List Nat)) :=
  (iterenc v).map utf8Encode

/-- JSON whitespace. -/
def isWs (c : Nat) : Bool := decide (c = 32) || decide (c = 9) || decide (c = 10) || decide (c = 13)

/-- Skip leading whitespace, as the decoder does around tokens. -/
def skipWs (s : List Nat) : List Nat := s.dropWhile isWs

/-- An ASCII decimal digit. -/
def isDigit (c : Nat) : Bool := decide (48 ≤ c) && decide (c ≤ 57)

/-- Accumulate leading decimal digits. -/
def digitsAux : Nat → List Nat → Nat × List Nat
  | acc, [] => (acc, [])
  | acc, c :: rest =>
    if isDigit c then digitsAux (acc * 10 + (c - 48)) rest else (acc, c :: rest)

/-- Parse a nonempty run of decimal digits. -/
def parseDigits : List Nat → Option (Nat × List Nat)
  | [] => none
  | c :: rest => if isDigit c then some (digitsAux 0 (c :: rest)) else none

/-- Does the remaining input continue the numeral with a fraction or
exponent?  (Floats are outside the modelled value space.) -/
def numCont : List Nat → Bool
  | [] => false
  | c :: _ => decide (c = 46) || decide (c = 101) || decide (c = 69)

/-- Parse a JSON integer numeral: optional minus, then digits. -/
def parseNumber : List Nat → Option (JVal × List Nat)
  | [] => none
  | c :: rest =>
    if c = 45 then
      match parseDigits rest with
      | some (n, r) => if numCont r then none else some (.jint (-(n : Int)), r)
      | none => none
    else
      match parseDigits (c :: rest) with
      | some (n, r) => if numCont r then none else some (.jint (n : Int), r)
      | none => none

/-- Parse four hex digits. -/
def parseHex4 : List Nat → Option (Nat × List Nat)
  | a :: b :: c :: d :: rest =>
    match hexDigVal? a, hexDigVal? b, hexDigVal? c, hexDigVal? d with
    | some va, some vb, some vc, some vd =>
      some (((va * 16 + vb) * 16 + vc) * 16 + vd, rest)
    | _, _, _, _ => none
  | _ => none

/-- A `\uXXXX` escape after the backslash-u prefix, combining a high
surrogate with an immediately following low-surrogate escape as the
backend scanner does. -/
def parseU (s : List Nat) : Option (Nat × List Nat) :=
  match parseHex4 s with
  | some (n, rest3) =>
    if 0xD800 ≤ n ∧ n < 0xDC00 then
      match rest3 with
      | 92 :: 117 :: rest4 =>
        match parseHex4 rest4 with
        | some (m, rest5) =>
          if 0xDC00 ≤ m ∧ m < 0xE000 then
            some (0x10000 + (n - 0xD800) * 0x400 + (m - 0xDC00), rest5)
          else some (n, rest3)
        | none => some (n, rest3)
      | _ => some (n, rest3)
    else some (n, rest3)
  | none => none

/-- Scan a string body after the opening quote: literal characters (raw
controls rejected, as with the backend's strict scanner), the short escapes,
and `\uXXXX` with surrogate-pair combination.  Fuel only serves structural
termination and never runs out when started at the input length. -/
def parseStrGo : Nat → List Nat → Option (List Nat × List Nat)
  | 0, _ => none
  | _ + 1, [] => none
  | fuel + 1, c :: rest =>
    if c = 34 then some ([], rest)
    else if c = 92 then
      match rest with
      | e :: rest2 =>
        if e = 34 ∨ e = 92 ∨ e = 47 then
          (parseStrGo fuel rest2).map (fun p => (e :: p.1, p.2))
        else if e = 98 then (parseStrGo fuel rest2).map (fun p => (8 :: p.1, p.2))
        else if e = 102 then (parseStrGo fuel rest2).map (fun p => (12 :: p.1, p.2))
        else if e = 110 then (parseStrGo fuel rest2).map (fun p => (10 :: p.1, p.2))
        else if e = 114 then (parseStrGo fuel rest2).map (fun p => (13 :: p.1, p.2))
        else if e = 116 then (parseStrGo fuel rest2).map (fun p => (9 :: p.1, p.2))
        else if e = 117 then
          match parseU rest2 with
          | some (n, rest3) => (parseStrGo fuel rest3).map (fun p => (n :: p.1, p.2))
          | none => none
        else none
      | [] => none
    else if c < 32 then none
    else (parseStrGo fuel rest).map (fun p => (c :: p.1, p.2))

/-- Scan a string body (self-fuelled). -/
def parseStr (s : List Nat) : Option (List Nat × List Nat) :=
  parseStrGo s.length s

/-- Parse the comma-separated items of a nonempty array up to the closing
bracket, with `pv` parsing one value.  Fuel bounds the number of items. -/
def parseItemsGo (pv : List Nat → Option (JVal × List Nat)) :
    Nat → List Nat → Option (List JVal × List Nat)
  | 0, _ => none
  | fuel + 1, s =>
    match pv s with
    | some (v, r) =>
      match skipWs r with
      | 44 :: r2 =>
        (parseItemsGo pv fuel (skipWs r2)).map (fun p => (v :: p.1, p.2))
      | 93 :: r2 => some ([v], r2)
      | _ => none
    | none => none

/-- Parse the comma-separated members of a nonempty object up to the closing
brace, with `pv` parsing one value. -/
def parseMembersGo (pv : List Nat → Option (JVal × List Nat)) :
    Nat → List Nat → Option (List (List Nat × JVal) × List Nat)
  | 0, _ => none
  | fuel + 1, s =>
    match s with
    | 34 :: rest =>
      match parseStr rest with
      | some (k, r1) =>
        match skipWs r1 with
        | 58 :: r2 =>
          match pv (skipWs r2) with
          | some (v, r3) =>
            match skipWs r3 with
            | 44 :: r4 =>
              (parseMembersGo pv fuel (skipWs r4)).map
                (fun p => ((k, v) :: p.1, p.2))
            | 125 :: r4 => some ([(k, v)], r4)
            | _ => none
          | none => none
        | _ => none
      | none => none
    | _ => none

/-- Parse one JSON value.  Fuel only serves structural termination and never
runs out when started above the input length. -/
def parseVal : Nat → List Nat → Option (JVal × List Nat)
  | 0, _ => none
  | fuel + 1, s =>
    match s with
    | [] => none
    | c :: rest =>
      if c = 34 then
        match parseStr rest with
        | some (cs, r) => some (.jstr cs, r)
        | none => none
      else if c = 91 then
        match skipWs rest with
        | [] => none
        | d :: r1 =>
          if d = 93 then some (.jarr [], r1)
          else
            match parseItemsGo (parseVal fuel) (r1.length + 2) (d :: r1) with
            | some (xs, r) => some (.jarr xs, r)
            | none => none
      else if c = 123 then
        match skipWs rest with
        | [] => none
        | d :: r1 =>
          if d = 125 then some (.jobj [], r1)
          else
            match parseMembersGo (parseVal fuel) (r1.length + 2) (d :: r1) with
            | some (kvs, r) => some (.jobj kvs, r)
            | none => none
      else if c = 110 then
        match rest with
        | 117 :: 108 :: 108 :: r => some (.jnull, r)
        | _ => none
      else if c = 116 then
        match rest with
        | 114 :: 117 :: 101 :: r => some (.jbool true, r)
        | _ => none
      else if c = 102 then
        match rest with
        | 97 :: 108 :: 115 :: 101 :: r => some (.jbool false, r)
        | _ => none
      else parseNumber s

/-- Model of the backend's `JSONDecoder().decode` (the binding of
lines 217-228): skip leading whitespace, parse one value, and reject
anything but whitespace after it.  Numerals are modelled as integers. -/
def json_decode (s : List Nat) : Except PyError JVal :=
  let s1 := skipWs s
  match parseVal (s1.length + 1) s1 with
  | some (v, rest) =>
    if skipWs rest = [] then .ok v else .error (.valueError "Extra data")
  | none => .error (.valueError "Expecting value")

theorem ser_null : ser .jnull = [110, 117, 108, 108] := by
  simp [ser, iterenc]

theorem ser_true : ser (.jbool true) = [116, 114, 117, 101] := by
  simp [ser, iterenc]

theorem ser_false : ser (.jbool false) = [102, 97, 108, 115, 101] := by
  simp [ser, iterenc]

theorem ser_int (n : Int) : ser (.jint n) = serInt n := by
  simp [ser, iterenc]

theorem ser_str (s : List Nat) : ser (.jstr s) = serStr s := by
  simp [ser, iterenc]

theorem ser_arr_nil : ser (.jarr []) = [91, 93] := by
  simp [ser, iterenc]

theorem ser_arr_cons (x : JVal) (xs : List JVal) :
    ser (.jarr (x :: xs)) = 91 :: (serArr x xs ++ [93]) := by
  simp [ser, serArr, iterenc]

theorem ser_obj_nil : ser (.jobj []) = [123, 125] := by
  simp [ser, iterenc]

theorem ser_obj_cons (kv : List Nat × JVal) (kvs : List (List Nat × JVal)) :
    ser (.jobj (kv :: kvs)) = 123 :: (serObj kv kvs ++ [125]) := by
  simp [ser, serObj, iterenc]

theorem serArr_single (x : JVal) : serArr x [] = ser x := by
  simp [ser, serArr, iterencArr]

theorem serArr_cons (x y : JVal) (xs : List JVal) :
    serArr x (y :: xs) = ser x ++ (44 :: 32 :: serArr y xs) := by
  simp [ser, serArr, iterencArr]

theorem serObj_single (kv : List Nat × JVal) :
    serObj kv [] = serStr kv.1 ++ (58 :: 32 :: ser kv.2) := by
  simp [ser, serObj, iterencObj]

theorem serObj_cons (kv kv2 : List Nat × JVal) (kvs : List (List Nat × JVal)) :
    serObj kv (kv2 :: kvs) =
      serStr kv.1 ++ (58 :: 32 :: (ser kv.2 ++ (44 :: 32 :: serObj kv2 kvs))) := by
  simp [ser, serObj, iterencObj]

/-- Remaining input that cannot extend a just-parsed numeral. -/
def numStop : List Nat → Prop
  | [] => True
  | c :: _ => isDigit c = false ∧ c ≠ 46 ∧ c ≠ 101 ∧ c ≠ 69

theorem digitsAux_stop (acc : Nat) (rest : List Nat) (h : numStop rest) :
    digitsAux acc rest = (acc, rest) := by
  cases rest with
  | nil => rfl
  | cons c r => simp [digitsAux, h.1]

theorem numCont_false_of_stop (rest : List Nat) (h : numStop rest) :
    numCont rest = false := by
  cases rest with
  | nil => rfl
  | cons c r =>
    simp only [numCont]
    obtain ⟨-, h1, h2, h3⟩ := h
    simp [h1, h2, h3]

theorem natDigitsGo_head (fuel n : Nat) :
    ∃ d ds, natDigitsGo fuel n = d :: ds ∧ 48 ≤ d ∧ d ≤ 57 := by
  induction fuel generalizing n with
  | zero => exact ⟨48 + n % 10, [], rfl, by omega, by omega⟩
  | succ f ih =>
    by_cases h : n < 10
    · exact ⟨48 + n, [], by simp [natDigitsGo, h], by omega, by omega⟩
    · obtain ⟨d, ds, hds, h1, h2⟩ := ih (n / 10)
      exact ⟨d, ds ++ [48 + n % 10], by simp [natDigitsGo, h, hds], h1, h2⟩

theorem digitsAux_natDigitsGo (fuel : Nat) :
    ∀ (n acc : Nat) (rest : List Nat), n ≤ fuel →
      digitsAux acc (natDigitsGo fuel n ++ rest) =
        digitsAux (acc * 10 ^ (natDigitsGo fuel n).length + n) rest := by
  induction fuel with
  | zero =>
    intro n acc rest h
    have hn : n = 0 := by omega
    subst hn
    simp [natDigitsGo, digitsAux, isDigit]
  | succ f ih =>
    intro n acc rest h
    by_cases hlt : n < 10
    · simp only [natDigitsGo, if_pos hlt, List.cons_append, List.nil_append,
        List.length_cons, List.length_nil]
      simp [digitsAux, isDigit, show 48 ≤ 48 + n by omega,
        show 48 + n ≤ 57 by omega]
      try omega
    · have hdiv : n / 10 ≤ f := by omega
      simp only [natDigitsGo, if_neg hlt, List.append_assoc, List.cons_append,
        List.nil_append, List.length_append, List.length_cons, List.length_nil]
      rw [ih (n / 10) acc ((48 + n % 10) :: rest) hdiv]
      have hd : isDigit (48 + n % 10) = true := by
        simp [isDigit]; omega
      simp only [digitsAux, hd, if_pos]
      have harith :
          (acc * 10 ^ (natDigitsGo f (n / 10)).length + n / 10) * 10 +
              (48 + n % 10 - 48) =
            acc * 10 ^ ((natDigitsGo f (n / 10)).length + 1) + n := by
        rw [pow_succ]
        have := Nat.div_add_mod n 10
        ring_nf
        omega
      rw [harith]

theorem parseDigits_natDigits (n : Nat) (rest : List Nat) (h : numStop rest) :
    parseDigits (natDigits n ++ rest) = some (n, rest) := by
  obtain ⟨d, ds, hds, h1, h2⟩ := natDigitsGo_head n n
  unfold natDigits
  rw [hds]
  have hd : isDigit d = true := by simp [isDigit]; omega
  simp only [List.cons_append, parseDigits, hd, if_pos]
  rw [← List.cons_append, ← hds, digitsAux_natDigitsGo n n 0 rest le_rfl,
    digitsAux_stop _ _ h]
  simp

theorem parseNumber_serInt (n : Int) (rest : List Nat) (h : numStop rest) :
    parseNumber (serInt n ++ rest) = some (.jint n, rest) := by
  by_cases hn : n < 0
  · simp only [serInt, if_pos hn, List.cons_append]
    simp only [parseNumber, if_pos rfl, parseDigits_natDigits _ _ h]
    simp [numCont_false_of_stop _ h]
    omega
  · simp only [serInt, if_neg hn]
    obtain ⟨d, ds, hds, h1, h2⟩ := natDigitsGo_head n.toNat n.toNat
    have hne : ¬ d = 45 := by omega
    unfold natDigits
    rw [hds]
    simp only [List.cons_append, parseNumber, if_neg hne]
    rw [← List.cons_append, ← hds,
      show natDigitsGo n.toNat n.toNat = natDigits n.toNat from rfl,
      parseDigits_natDigits _ _ h]
    simp [numCont_false_of_stop _ h]
    omega

theorem hexDigVal?_hexDig {d : Nat} (h : d < 16) :
    hexDigVal? (hexDig d) = some d := by
  by_cases h10 : d < 10
  · simp only [hexDig, if_pos h10, hexDigVal?]
    rw [if_pos (by omega)]
    simp
  · simp only [hexDig, if_neg h10, hexDigVal?]
    rw [if_neg (by omega), if_pos (by omega)]
    simp

theorem parseHex4_hex4 {n : Nat} (rest : List Nat) (h : n < 0x10000) :
    parseHex4 (hex4 n ++ rest) = some (n, rest) := by
  simp only [hex4, List.cons_append, List.nil_append, parseHex4,
    hexDigVal?_hexDig (Nat.mod_lt _ (by omega)),
    hexDigVal?_hexDig (show n / 4096 % 16 < 16 from Nat.mod_lt _ (by omega))]
  have : ((n / 4096 % 16 * 16 + n / 256 % 16) * 16 + n / 16 % 16) * 16 + n % 16 = n := by
    omega
  rw [this]

theorem escChar_length_pos (c : Nat) : 1 ≤ (escChar c).length := by
  unfold escChar
  repeat' split
  all_goals simp

theorem parseStrGo_esc_quote (f : Nat) (tail : List Nat) :
    parseStrGo (f + 1) (92 :: 34 :: tail) =
      (parseStrGo f tail).map (fun p => (34 :: p.1, p.2)) := rfl

theorem parseStrGo_esc_backslash (f : Nat) (tail : List Nat) :
    parseStrGo (f + 1) (92 :: 92 :: tail) =
      (parseStrGo f tail).map (fun p => (92 :: p.1, p.2)) := rfl

theorem parseStrGo_esc_b (f : Nat) (tail : List Nat) :
    parseStrGo (f + 1) (92 :: 98 :: tail) =
      (parseStrGo f tail).map (fun p => (8 :: p.1, p.2)) := rfl

theorem parseStrGo_esc_t (f : Nat) (tail : List Nat) :
    parseStrGo (f + 1) (92 :: 116 :: tail) =
      (parseStrGo f tail).map (fun p => (9 :: p.1, p.2)) := rfl

theorem parseStrGo_esc_n (f : Nat) (tail : List Nat) :
    parseStrGo (f + 1) (92 :: 110 :: tail) =
      (parseStrGo f tail).map (fun p => (10 :: p.1, p.2)) := rfl

theorem parseStrGo_esc_f (f : Nat) (tail : List Nat) :
    parseStrGo (f + 1) (92 :: 102 :: tail) =
      (parseStrGo f tail).map (fun p => (12 :: p.1, p.2)) := rfl

theorem parseStrGo_esc_r (f : Nat) (tail : List Nat) :
    parseStrGo (f + 1) (92 :: 114 :: tail) =
      (parseStrGo f tail).map (fun p => (13 :: p.1, p.2)) := rfl

theorem parseStrGo_plain (f c : Nat) (tail : List Nat) (h1 : ¬ c = 34)
    (h2 : ¬ c = 92) (h3 : ¬ c < 32) :
    parseStrGo (f + 1) (c :: tail) =
      (parseStrGo f tail).map (fun p => (c :: p.1, p.2)) := by
  simp only [parseStrGo, if_neg h1, if_neg h2, if_neg h3]

theorem parseStrGo_esc_u (f : Nat) (tail : List Nat) :
    parseStrGo (f + 1) (92 :: 117 :: tail) =
      (match parseU tail with
        | some (n, rest3) =>
          (parseStrGo f rest3).map (fun p => (n :: p.1, p.2))
        | none => none) := rfl

theorem parseU_hex4 (c : Nat) (tail : List Nat) (hbmp : c < 0x10000)
    (hsur : ¬ (0xD800 ≤ c ∧ c < 0xDC00)) :
    parseU (hex4 c ++ tail) = some (c, tail) := by
  unfold parseU
  rw [parseHex4_hex4 _ hbmp]
  simp [hsur]

theorem parseU_pair (hi lo c : Nat) (tail : List Nat)
    (hhi : 0xD800 ≤ hi ∧ hi < 0xDC00) (hlo : 0xDC00 ≤ lo ∧ lo < 0xE000)
    (hc : 0x10000 + (hi - 0xD800) * 0x400 + (lo - 0xDC00) = c) :
    parseU (hex4 hi ++ (92 :: 117 :: (hex4 lo ++ tail))) = some (c, tail) := by
  unfold parseU
  rw [parseHex4_hex4 _ (by omega)]
  simp only [List.cons_append]
  simp [hhi.1, hhi.2]
  rw [parseHex4_hex4 _ (by omega)]
  simp [hlo.1, hlo.2]
  omega

theorem parseStrGo_uesc (f c : Nat) (tail : List Nat) (hbmp : c < 0x10000)
    (hsur : ¬ (0xD800 ≤ c ∧ c < 0xDC00)) :
    parseStrGo (f + 1) (92 :: 117 :: (hex4 c ++ tail)) =
      (parseStrGo f tail).map (fun p => (c :: p.1, p.2)) := by
  rw [parseStrGo_esc_u, parseU_hex4 c tail hbmp hsur]

theorem parseStrGo_upair (f hi lo c : Nat) (tail : List Nat)
    (hhi : 0xD800 ≤ hi ∧ hi < 0xDC00) (hlo : 0xDC00 ≤ lo ∧ lo < 0xE000)
    (hc : 0x10000 + (hi - 0xD800) * 0x400 + (lo - 0xDC00) = c) :
    parseStrGo (f + 1)
        (92 :: 117 :: (hex4 hi ++ (92 :: 117 :: (hex4 lo ++ tail)))) =
      (parseStrGo f tail).map (fun p => (c :: p.1, p.2)) := by
  rw [parseStrGo_esc_u, parseU_pair hi lo c tail hhi hlo hc]

theorem parseStrGo_escStr :
    ∀ (s : List Nat), (∀ c ∈ s, validCp c) →
      ∀ (fuel : Nat) (rest : List Nat), (escStr s).length < fuel →
        parseStrGo fuel (escStr s ++ (34 :: rest)) = some (s, rest) := by
  intro s
  induction s with
  | nil =>
    intro _ fuel rest hf
    match fuel, hf with
    | f + 1, _ =>
      simp [escStr, parseStrGo]
  | cons c s' ih =>
    intro hv fuel rest hf
    have hvc : validCp c := hv c (by simp)
    have ihs : ∀ x ∈ s', validCp x := fun x hx => hv x (by simp [hx])
    rw [show escStr (c :: s') = escChar c ++ escStr s' from by
      simp [escStr, List.flatMap_cons]] at hf ⊢
    match fuel, hf with
    | f + 1, hf =>
      have hf' : (escStr s').length < f := by
        have := escChar_length_pos c
        rw [List.length_append] at hf
        omega
      have IH := ih ihs f rest hf'
      rw [List.append_assoc]
      by_cases h34 : c = 34
      · subst h34
        rw [show escChar 34 = [92, 34] from rfl, List.cons_append,
          List.cons_append, List.nil_append, parseStrGo_esc_quote, IH]
        rfl
      · by_cases h92 : c = 92
        · subst h92
          rw [show escChar 92 = [92, 92] from rfl, List.cons_append,
            List.cons_append, List.nil_append, parseStrGo_esc_backslash, IH]
          rfl
        · by_cases h8 : c = 8
          · subst h8
            rw [show escChar 8 = [92, 98] from rfl, List.cons_append,
              List.cons_append, List.nil_append, parseStrGo_esc_b, IH]
            rfl
          · by_cases h9 : c = 9
            · subst h9
              rw [show escChar 9 = [92, 116] from rfl, List.cons_append,
                List.cons_append, List.nil_append, parseStrGo_esc_t, IH]
              rfl
            · by_cases h10 : c = 10
              · subst h10
                rw [show escChar 10 = [92, 110] from rfl, List.cons_append,
                  List.cons_append, List.nil_append, parseStrGo_esc_n, IH]
                rfl
              · by_cases h12 : c = 12
                · subst h12
                  rw [show escChar 12 = [92, 102] from rfl, List.cons_append,
                    List.cons_append, List.nil_append, parseStrGo_esc_f, IH]
                  rfl
                · by_cases h13 : c = 13
                  · subst h13
                    rw [show escChar 13 = [92, 114] from rfl, List.cons_append,
                      List.cons_append, List.nil_append, parseStrGo_esc_r, IH]
                    rfl
                  · by_cases hout : c < 32 ∨ 127 ≤ c
                    · by_cases hbmp : c < 0x10000
                      · have hsur : ¬ (0xD800 ≤ c ∧ c < 0xDC00) := by
                          rcases hvc.2 with h | h <;> omega
                        rw [show escChar c = [92, 117] ++ hex4 c from by
                            simp only [escChar, if_neg h34, if_neg h92,
                              if_neg h8, if_neg h9, if_neg h10, if_neg h12,
                              if_neg h13, if_pos hout, if_pos hbmp],
                          List.append_assoc, List.cons_append,
                          List.cons_append, List.nil_append,
                          parseStrGo_uesc f c _ hbmp hsur, IH]
                        rfl
                      · have hcc : c < 0x110000 := hvc.1
                        rw [show escChar c = [92, 117] ++
                            hex4 (0xD800 + (c - 0x10000) / 0x400) ++
                            ([92, 117] ++
                              hex4 (0xDC00 + (c - 0x10000) % 0x400)) from by
                            simp only [escChar, if_neg h34, if_neg h92,
                              if_neg h8, if_neg h9, if_neg h10, if_neg h12,
                              if_neg h13, if_pos hout, if_neg hbmp,
                              List.append_assoc]]
                        simp only [List.append_assoc, List.cons_append,
                          List.nil_append]
                        rw [parseStrGo_upair f _ _ c _
                          ⟨by omega, by omega⟩ ⟨by omega, by omega⟩ (by omega),
                          IH]
                        rfl
                    · rw [show escChar c = [c] from by
                          simp only [escChar, if_neg h34, if_neg h92, if_neg h8,
                            if_neg h9, if_neg h10, if_neg h12, if_neg h13,
                            if_neg hout],
                        List.cons_append, List.nil_append,
                        parseStrGo_plain f c _ h34 h92
                          (by push_neg at hout; omega), IH]
                      rfl

/-- Scanning a serialized string body (self-fuelled wrapper). -/
theorem parseStr_escStr (s : List Nat) (hv : ∀ c ∈ s, validCp c)
    (rest : List Nat) :
    parseStr (escStr s ++ (34 :: rest)) = some (s, rest) := by
  unfold parseStr
  exact parseStrGo_escStr s hv _ rest (by simp)

theorem serHead (v : JVal) :
    ∃ c cs, ser v = c :: cs ∧ isWs c = false ∧ ¬ c = 93 ∧ ¬ c = 125 := by
  cases v with
  | jnull => exact ⟨110, _, ser_null, by decide, by decide, by decide⟩
  | jbool b =>
    cases b with
    | true => exact ⟨116, _, ser_true, by decide, by decide, by decide⟩
    | false => exact ⟨102, _, ser_false, by decide, by decide, by decide⟩
  | jint n =>
    by_cases hn : n < 0
    · exact ⟨45, natDigits (-n).toNat, by rw [ser_int]; simp [serInt, hn],
        by decide, by decide, by decide⟩
    · obtain ⟨d, ds, hds, h1, h2⟩ := natDigitsGo_head n.toNat n.toNat
      refine ⟨d, ds, ?_, ?_, ?_, ?_⟩
      · rw [ser_int]
        simp only [serInt, if_neg hn]
        exact hds
      · simp [isWs]
        omega
      · omega
      · omega
  | jstr s => exact ⟨34, _, by rw [ser_str]; rfl, by decide, by decide, by decide⟩
  | jarr xs =>
    cases xs with
    | nil => exact ⟨91, _, ser_arr_nil, by decide, by decide, by decide⟩
    | cons x xs => exact ⟨91, _, ser_arr_cons x xs, by decide, by decide, by decide⟩
  | jobj kvs =>
    cases kvs with
    | nil => exact ⟨123, _, ser_obj_nil, by decide, by decide, by decide⟩
    | cons kv kvs =>
      exact ⟨123, _, ser_obj_cons kv kvs, by decide, by decide, by decide⟩

theorem skipWs_cons_of_not_ws {c : Nat} (l : List Nat) (h : isWs c = false) :
    skipWs (c :: l) = c :: l := by
  simp [skipWs, List.dropWhile_cons, h]

theorem skipWs_ser (v : JVal) (r : List Nat) :
    skipWs (ser v ++ r) = ser v ++ r := by
  obtain ⟨c, cs, hser, hws, -, -⟩ := serHead v
  rw [hser, List.cons_append, skipWs_cons_of_not_ws _ hws]

theorem serArr_head (x : JVal) (xs : List JVal) :
    ∃ c cs, serArr x xs = c :: cs ∧ isWs c = false ∧ ¬ c = 93 := by
  obtain ⟨c, cs, hser, hws, h93, -⟩ := serHead x
  cases xs with
  | nil => exact ⟨c, cs, by rw [serArr_single, hser], hws, h93⟩
  | cons y ys =>
    exact ⟨c, cs ++ (44 :: 32 :: serArr y ys), by
      rw [serArr_cons, hser, List.cons_append], hws, h93⟩

theorem skipWs_serArr (x : JVal) (xs : List JVal) (r : List Nat) :
    skipWs (serArr x xs ++ r) = serArr x xs ++ r := by
  obtain ⟨c, cs, hser, hws, -⟩ := serArr_head x xs
  rw [hser, List.cons_append, skipWs_cons_of_not_ws _ hws]

theorem ser_length_pos (v : JVal) : 1 ≤ (ser v).length := by
  obtain ⟨c, cs, hser, -, -, -⟩ := serHead v
  simp [hser]

theorem serArr_mem_length (x : JVal) (xs : List JVal) :
    ∀ y ∈ x :: xs, (ser y).length ≤ (serArr x xs).length := by
  induction xs generalizing x with
  | nil =>
    intro y hy
    rcases List.mem_cons.mp hy with rfl | h
    · rw [serArr_single]
    · simp at h
  | cons z zs ih =>
    intro y hy
    rw [serArr_cons, List.length_append]
    rcases List.mem_cons.mp hy with rfl | h
    · omega
    · have := ih z y h
      simp only [List.length_cons]
      omega

theorem serArr_length (x : JVal) (xs : List JVal) :
    xs.length + 1 ≤ (serArr x xs).length := by
  induction xs generalizing x with
  | nil =>
    rw [serArr_single]
    simpa using ser_length_pos x
  | cons z zs ih =>
    rw [serArr_cons, List.length_append]
    have h1 := ser_length_pos x
    have h2 := ih z
    simp only [List.length_cons] at *
    omega

theorem serObj_mem_length (kv : List Nat × JVal) (kvs : List (List Nat × JVal)) :
    ∀ kv' ∈ kv :: kvs, (ser kv'.2).length ≤ (serObj kv kvs).length := by
  induction kvs generalizing kv with
  | nil =>
    intro kv' h
    rcases List.mem_cons.mp h with rfl | h
    · rw [serObj_single]
      simp only [List.length_append, List.length_cons]
      omega
    · simp at h
  | cons kv2 kvs2 ih =>
    intro kv' h
    rw [serObj_cons]
    simp only [List.length_append, List.length_cons]
    rcases List.mem_cons.mp h with rfl | h
    · omega
    · have := ih kv2 kv' h
      omega

theorem serObj_length (kv : List Nat × JVal) (kvs : List (List Nat × JVal)) :
    kvs.length + 1 ≤ (serObj kv kvs).length := by
  induction kvs generalizing kv with
  | nil =>
    rw [serObj_single]
    simp only [List.length_append, List.length_cons, List.length_nil]
    omega
  | cons kv2 kvs2 ih =>
    rw [serObj_cons]
    have h2 := ih kv2
    simp only [List.length_append, List.length_cons, List.length_nil] at *
    omega

theorem numStop_of_head_44 (r : List Nat) : numStop (44 :: r) := by
  refine ⟨by decide, by decide, by decide, by decide⟩

theorem numStop_of_head_93 (r : List Nat) : numStop (93 :: r) := by
  refine ⟨by decide, by decide, by decide, by decide⟩

theorem numStop_of_head_125 (r : List Nat) : numStop (125 :: r) := by
  refine ⟨by decide, by decide, by decide, by decide⟩

theorem parseItemsGo_spec (pv : List Nat → Option (JVal × List Nat)) :
    ∀ (xs : List JVal) (x : JVal) (fuelI : Nat) (rest : List Nat),
      (∀ y ∈ x :: xs, ∀ r, numStop r → pv (ser y ++ r) = some (y, r)) →
      xs.length < fuelI →
      parseItemsGo pv fuelI (serArr x xs ++ (93 :: rest)) = some (x :: xs, rest) := by
  intro xs
  induction xs with
  | nil =>
    intro x fuelI rest hpv hfi
    match fuelI, hfi with
    | f + 1, _ =>
      rw [serArr_single]
      simp only [parseItemsGo]
      rw [hpv x (by simp) (93 :: rest) (numStop_of_head_93 rest)]
      simp only [skipWs_cons_of_not_ws _ (show isWs 93 = false from rfl)]
  | cons y ys ih =>
    intro x fuelI rest hpv hfi
    match fuelI, hfi with
    | f + 1, hfi =>
      rw [serArr_cons]
      simp only [parseItemsGo, List.append_assoc, List.cons_append]
      rw [hpv x (by simp) (44 :: 32 :: (serArr y ys ++ 93 :: rest))
        (numStop_of_head_44 _)]
      simp only [skipWs_cons_of_not_ws _ (show isWs 44 = false from rfl)]
      have hsw : skipWs (32 :: (serArr y ys ++ 93 :: rest)) =
          serArr y ys ++ 93 :: rest := by
        show List.dropWhile isWs (32 :: (serArr y ys ++ 93 :: rest)) = _
        rw [List.dropWhile_cons]
        simp only [show isWs 32 = true from rfl, if_true]
        exact skipWs_serArr y ys (93 :: rest)
      rw [hsw, ih y f rest (fun z hz => hpv z (by simp [hz]))
        (by simp at hfi ⊢; omega)]
      rfl

theorem serObj_head (kv : List Nat × JVal) (kvs : List (List Nat × JVal)) :
    ∃ cs, serObj kv kvs = 34 :: cs := by
  cases kvs with
  | nil =>
    rw [serObj_single]
    exact ⟨_, by rw [show serStr kv.1 = 34 :: (escStr kv.1 ++ [34]) from rfl,
      List.cons_append]⟩
  | cons kv2 kvs2 =>
    rw [serObj_cons]
    exact ⟨_, by rw [show serStr kv.1 = 34 :: (escStr kv.1 ++ [34]) from rfl,
      List.cons_append]⟩

theorem skipWs_serObj (kv : List Nat × JVal) (kvs : List (List Nat × JVal))
    (r : List Nat) : skipWs (serObj kv kvs ++ r) = serObj kv kvs ++ r := by
  obtain ⟨cs, hser⟩ := serObj_head kv kvs
  rw [hser, List.cons_append, skipWs_cons_of_not_ws _ (by decide)]

theorem parseMembersGo_spec (pv : List Nat → Option (JVal × List Nat)) :
    ∀ (kvs : List (List Nat × JVal)) (kv : List Nat × JVal) (fuelI : Nat)
      (rest : List Nat),
      (∀ kv' ∈ kv :: kvs, ∀ c ∈ kv'.1, validCp c) →
      (∀ kv' ∈ kv :: kvs, ∀ r, numStop r → pv (ser kv'.2 ++ r) = some (kv'.2, r)) →
      kvs.length < fuelI →
      parseMembersGo pv fuelI (serObj kv kvs ++ (125 :: rest)) =
        some (kv :: kvs, rest) := by
  intro kvs
  induction kvs with
  | nil =>
    intro kv fuelI rest hkeys hvals hfi
    match fuelI, hfi with
    | f + 1, _ =>
      rw [serObj_single]
      simp only [serStr, parseMembersGo, List.append_assoc, List.cons_append]
      simp only [List.nil_append]
      rw [parseStr_escStr kv.1 (hkeys kv (by simp)) _]
      simp only [skipWs_cons_of_not_ws _ (show isWs 58 = false from rfl)]
      have hsw : skipWs (32 :: (ser kv.2 ++ 125 :: rest)) =
          ser kv.2 ++ 125 :: rest := by
        show List.dropWhile isWs (32 :: (ser kv.2 ++ 125 :: rest)) = _
        rw [List.dropWhile_cons]
        simp only [show isWs 32 = true from rfl, if_true]
        exact skipWs_ser kv.2 (125 :: rest)
      rw [hsw]
      rw [hvals kv (by simp) (125 :: rest) (numStop_of_head_125 rest)]
      simp only [skipWs_cons_of_not_ws _ (show isWs 125 = false from rfl)]
  | cons kv2 kvs2 ih =>
    intro kv fuelI rest hkeys hvals hfi
    match fuelI, hfi with
    | f + 1, hfi =>
      rw [serObj_cons]
      simp only [serStr, parseMembersGo, List.append_assoc, List.cons_append]
      simp only [List.nil_append]
      rw [parseStr_escStr kv.1 (hkeys kv (by simp)) _]
      simp only [skipWs_cons_of_not_ws _ (show isWs 58 = false from rfl)]
      have hsw : skipWs
          (32 :: (ser kv.2 ++ (44 :: 32 :: (serObj kv2 kvs2 ++ 125 :: rest)))) =
          ser kv.2 ++ (44 :: 32 :: (serObj kv2 kvs2 ++ 125 :: rest)) := by
        show List.dropWhile isWs _ = _
        rw [List.dropWhile_cons]
        simp only [show isWs 32 = true from rfl, if_true]
        exact skipWs_ser kv.2 _
      rw [hsw]
      rw [hvals kv (by simp) (44 :: 32 :: (serObj kv2 kvs2 ++ 125 :: rest))
        (numStop_of_head_44 _)]
      simp only [skipWs_cons_of_not_ws _ (show isWs 44 = false from rfl)]
      have hsw2 : skipWs (32 :: (serObj kv2 kvs2 ++ 125 :: rest)) =
          serObj kv2 kvs2 ++ 125 :: rest := by
        show List.dropWhile isWs _ = _
        rw [List.dropWhile_cons]
        simp only [show isWs 32 = true from rfl, if_true]
        exact skipWs_serObj kv2 kvs2 _
      rw [hsw2]
      rw [ih kv2 f rest (fun z hz => hkeys z (by simp [hz]))
        (fun z hz => hvals z (by simp [hz])) (by simp at hfi ⊢; omega)]
      rfl

theorem parseVal_ser :
    ∀ (fuel : Nat) (v : JVal) (rest : List Nat), ValidJ v →
      (ser v).length < fuel → numStop rest →
      parseVal fuel (ser v ++ rest) = some (v, rest) := by
  intro fuel
  induction fuel with
  | zero =>
    intro v rest _ hf _
    have := ser_length_pos v
    omega
  | succ f ih =>
    intro v rest hv hf hstop
    cases v with
    | jnull =>
      rw [ser_null]
      rfl
    | jbool b =>
      cases b with
      | false => rw [ser_false]; rfl
      | true => rw [ser_true]; rfl
    | jint n =>
      rw [ser_int]
      by_cases hn : n < 0
      · rw [show serInt n = 45 :: natDigits (-n).toNat from by simp [serInt, hn]]
        simp only [parseVal, List.cons_append]
        norm_num
        rw [← List.cons_append,
          show (45 :: natDigits (-n).toNat) = serInt n from by simp [serInt, hn],
          parseNumber_serInt n rest hstop]
      · obtain ⟨d, ds, hds, h1, h2⟩ := natDigitsGo_head n.toNat n.toNat
        rw [show serInt n = d :: ds from by rw [serInt, if_neg hn]; exact hds]
        simp only [parseVal, List.cons_append]
        rw [if_neg (by omega), if_neg (by omega), if_neg (by omega),
          if_neg (by omega), if_neg (by omega), if_neg (by omega)]
        rw [← List.cons_append, ← hds,
          show natDigitsGo n.toNat n.toNat = serInt n from by
            rw [serInt, if_neg hn]; rfl,
          parseNumber_serInt n rest hstop]
    | jstr s =>
      cases hv with
      | vstr _ hvc =>
        rw [ser_str, show serStr s = 34 :: (escStr s ++ [34]) from rfl]
        simp only [parseVal, List.cons_append]
        norm_num
        rw [parseStr_escStr s hvc rest]
    | jarr xs =>
      cases xs with
      | nil =>
        rw [ser_arr_nil]
        rfl
      | cons x xs =>
        have hall : ∀ y ∈ x :: xs, ValidJ y := by
          cases hv with
          | varr _ h => exact h
        rw [ser_arr_cons] at hf ⊢
        simp only [parseVal, List.cons_append]
        norm_num
        obtain ⟨c, cs, hserA, hws, h93⟩ := serArr_head x xs
        rw [hserA, List.cons_append, skipWs_cons_of_not_ws _ hws]
        simp only [if_neg h93]
        rw [← List.cons_append, ← hserA]
        have hlenA : (serArr x xs).length = cs.length + 1 := by simp [hserA]
        have hpv : ∀ y ∈ x :: xs, ∀ r, numStop r →
            parseVal f (ser y ++ r) = some (y, r) := by
          intro y hy r hr
          have hm := serArr_mem_length x xs y hy
          have : (ser y).length < f := by
            simp only [List.length_cons, List.length_append] at hf
            omega
          exact ih y r (hall y hy) this hr
        have hfl : xs.length < (cs ++ 93 :: rest).length + 2 := by
          have := serArr_length x xs
          simp only [List.length_append, List.length_cons] at *
          omega
        rw [parseItemsGo_spec (parseVal f) xs x _ rest hpv hfl]
    | jobj kvs =>
      cases kvs with
      | nil =>
        rw [ser_obj_nil]
        rfl
      | cons kv kvs =>
        have hkeys : ∀ kv' ∈ kv :: kvs, ∀ c ∈ kv'.1, validCp c := by
          cases hv with
          | vobj _ hk _ => exact hk
        have hvals : ∀ kv' ∈ kv :: kvs, ValidJ kv'.2 := by
          cases hv with
          | vobj _ _ hvv => exact hvv
        rw [ser_obj_cons] at hf ⊢
        simp only [parseVal, List.cons_append]
        norm_num
        obtain ⟨cs, hserO⟩ := serObj_head kv kvs
        rw [hserO, List.cons_append, skipWs_cons_of_not_ws _ (by decide)]
        simp only [if_neg (show ¬ (34 : Nat) = 125 by decide)]
        rw [← List.cons_append, ← hserO]
        have hpv : ∀ kv' ∈ kv :: kvs, ∀ r, numStop r →
            parseVal f (ser kv'.2 ++ r) = some (kv'.2, r) := by
          intro kv' hkv r hr
          have hm := serObj_mem_length kv kvs kv' hkv
          have : (ser kv'.2).length < f := by
            simp only [List.length_cons, List.length_append] at hf
            omega
          exact ih kv'.2 r (hvals kv' hkv) this hr
        have hfl : kvs.length < (cs ++ 125 :: rest).length + 2 := by
          have := serObj_length kv kvs
          have hlenO : (serObj kv kvs).length = cs.length + 1 := by simp [hserO]
          simp only [List.length_append, List.length_cons] at *
          omega
        rw [parseMembersGo_spec (parseVal f) kvs kv _ rest hkeys hpv hfl]

theorem hexDig_lt (d : Nat) : hexDig (d % 16) < 128 := by
  unfold hexDig
  split <;> omega

theorem hex4_ascii (n : Nat) : ∀ b ∈ hex4 n, b < 128 := by
  intro b hb
  simp only [hex4, List.mem_cons, List.not_mem_nil, or_false] at hb
  rcases hb with rfl | rfl | rfl | rfl <;> exact hexDig_lt _

theorem escChar_ascii (c : Nat) : ∀ b ∈ escChar c, b < 128 := by
  intro b hb
  by_cases h34 : c = 34
  · subst h34; simp [escChar] at hb; rcases hb with rfl | rfl <;> decide
  · by_cases h92 : c = 92
    · subst h92; simp [escChar] at hb; rcases hb with rfl | rfl <;> decide
    · by_cases h8 : c = 8
      · subst h8; simp [escChar] at hb; rcases hb with rfl | rfl <;> decide
      · by_cases h9 : c = 9
        · subst h9; simp [escChar] at hb; rcases hb with rfl | rfl <;> decide
        · by_cases h10 : c = 10
          · subst h10; simp [escChar] at hb; rcases hb with rfl | rfl <;> decide
          · by_cases h12 : c = 12
            · subst h12; simp [escChar] at hb; rcases hb with rfl | rfl <;> decide
            · by_cases h13 : c = 13
              · subst h13; simp [escChar] at hb
                rcases hb with rfl | rfl <;> decide
              · by_cases hout : c < 32 ∨ 127 ≤ c
                · by_cases hbmp : c < 0x10000
                  · rw [show escChar c = [92, 117] ++ hex4 c from by
                      simp only [escChar, if_neg h34, if_neg h92, if_neg h8,
                        if_neg h9, if_neg h10, if_neg h12, if_neg h13,
                        if_pos hout, if_pos hbmp]] at hb
                    simp only [List.cons_append, List.nil_append,
                      List.mem_cons] at hb
                    rcases hb with rfl | rfl | hb
                    · decide
                    · decide
                    · exact hex4_ascii c b hb
                  · rw [show escChar c = ([92, 117] ++
                        hex4 (0xD800 + (c - 0x10000) / 0x400)) ++
                        ([92, 117] ++ hex4 (0xDC00 + (c - 0x10000) % 0x400))
                        from by
                      simp only [escChar, if_neg h34, if_neg h92, if_neg h8,
                        if_neg h9, if_neg h10, if_neg h12, if_neg h13,
                        if_pos hout, if_neg hbmp]] at hb
                    rw [List.mem_append] at hb
                    rcases hb with hb | hb <;>
                      simp only [List.cons_append, List.nil_append,
                        List.mem_cons] at hb <;>
                      rcases hb with rfl | rfl | hb
                    · decide
                    · decide
                    · exact hex4_ascii _ b hb
                    · decide
                    · decide
                    · exact hex4_ascii _ b hb
                · simp only [escChar, if_neg h34, if_neg h92, if_neg h8,
                    if_neg h9, if_neg h10, if_neg h12, if_neg h13,
                    if_neg hout, List.mem_cons, List.not_mem_nil,
                    or_false] at hb
                  subst hb
                  push_neg at hout
                  omega

theorem serStr_ascii (s : List Nat) : ∀ b ∈ serStr s, b < 128 := by
  intro b hb
  simp only [serStr, List.mem_cons, List.mem_append, escStr,
    List.mem_flatMap] at hb
  rcases hb with rfl | hb
  · decide
  · rcases hb with ⟨c, -, hc⟩ | hb
    · exact escChar_ascii c b hc
    · simp only [List.mem_cons, List.not_mem_nil, or_false] at hb
      subst hb
      decide

theorem natDigitsGo_ascii :
    ∀ (fuel n : Nat), ∀ b ∈ natDigitsGo fuel n, b < 128 := by
  intro fuel
  induction fuel with
  | zero =>
    intro n b hb
    simp [natDigitsGo] at hb
    omega
  | succ f ih =>
    intro n b hb
    simp only [natDigitsGo] at hb
    split at hb
    · simp at hb; omega
    · simp only [List.mem_append, List.mem_cons, List.not_mem_nil,
        or_false] at hb
      rcases hb with hb | rfl
      · exact ih _ b hb
      · omega

theorem serInt_ascii (n : Int) : ∀ b ∈ serInt n, b < 128 := by
  intro b hb
  unfold serInt at hb
  split at hb
  · simp only [List.mem_cons] at hb
    rcases hb with rfl | hb
    · decide
    · exact natDigitsGo_ascii _ _ b hb
  · exact natDigitsGo_ascii _ _ b hb

theorem serArr_ascii_aux :
    ∀ (xs : List JVal) (x : JVal),
      (∀ y ∈ x :: xs, ∀ b ∈ ser y, b < 128) → ∀ b ∈ serArr x xs, b < 128 := by
  intro xs
  induction xs with
  | nil =>
    intro x h b hb
    rw [serArr_single] at hb
    exact h x (by simp) b hb
  | cons y ys ih =>
    intro x h b hb
    rw [serArr_cons] at hb
    simp only [List.mem_append, List.mem_cons] at hb
    rcases hb with hb | rfl | rfl | hb
    · exact h x (by simp) b hb
    · decide
    · decide
    · exact ih y (fun z hz => h z (by simp at hz ⊢; tauto)) b hb

theorem serObj_ascii_aux :
    ∀ (kvs : List (List Nat × JVal)) (kv : List Nat × JVal),
      (∀ kv' ∈ kv :: kvs, ∀ b ∈ ser kv'.2, b < 128) →
      ∀ b ∈ serObj kv kvs, b < 128 := by
  intro kvs
  induction kvs with
  | nil =>
    intro kv h b hb
    rw [serObj_single] at hb
    simp only [List.mem_append, List.mem_cons] at hb
    rcases hb with hb | rfl | rfl | hb
    · exact serStr_ascii _ b hb
    · decide
    · decide
    · exact h kv (by simp) b hb
  | cons kv2 kvs2 ih =>
    intro kv h b hb
    rw [serObj_cons] at hb
    simp only [List.mem_append, List.mem_cons] at hb
    rcases hb with hb | rfl | rfl | hb | rfl | rfl | hb
    · exact serStr_ascii _ b hb
    · decide
    · decide
    · exact h kv (by simp) b hb
    · decide
    · decide
    · exact ih kv2 (fun z hz => h z (by simp at hz ⊢; tauto)) b hb

theorem serAscii_bound :
    ∀ (n : Nat) (v : JVal), (ser v).length ≤ n → ∀ b ∈ ser v, b < 128 := by
  intro n
  induction n with
  | zero =>
    intro v hl
    have := ser_length_pos v
    omega
  | succ n ih =>
    intro v hl b hb
    cases v with
    | jnull => rw [ser_null] at hb; simp at hb; omega
    | jbool bb =>
      cases bb with
      | true => rw [ser_true] at hb; simp at hb; omega
      | false => rw [ser_false] at hb; simp at hb; omega
    | jint m =>
      rw [ser_int] at hb
      exact serInt_ascii m b hb
    | jstr s =>
      rw [ser_str] at hb
      exact serStr_ascii s b hb
    | jarr xs =>
      cases xs with
      | nil => rw [ser_arr_nil] at hb; simp at hb; omega
      | cons x xs =>
        rw [ser_arr_cons] at hb
        rw [ser_arr_cons] at hl
        simp only [List.mem_cons, List.mem_append] at hb
        rcases hb with rfl | hb | hb
        · decide
        · refine serArr_ascii_aux xs x ?_ b hb
          intro y hy bz hbz
          refine ih y ?_ bz hbz
          have hm := serArr_mem_length x xs y hy
          simp only [List.length_cons, List.length_append] at hl
          omega
        · simp at hb; omega
    | jobj kvs =>
      cases kvs with
      | nil => rw [ser_obj_nil] at hb; simp at hb; omega
      | cons kv kvs =>
        rw [ser_obj_cons] at hb
        rw [ser_obj_cons] at hl
        simp only [List.mem_cons, List.mem_append] at hb
        rcases hb with rfl | hb | hb
        · decide
        · refine serObj_ascii_aux kvs kv ?_ b hb
          intro kv' hkv bz hbz
          refine ih kv'.2 ?_ bz hbz
          have hm := serObj_mem_length kv kvs kv' hkv
          simp only [List.length_cons, List.length_append] at hl
          omega
        · simp at hb; omega

theorem serAscii (v : JVal) : ∀ b ∈ ser v, b < 128 :=
  serAscii_bound (ser v).length v le_rfl

theorem utf8Encode_ascii_ok :
    ∀ cs : List Nat, (∀ c ∈ cs, c < 128) → utf8Encode cs = .ok cs := by
  intro cs h
  induction cs with
  | nil => rfl
  | cons c rest ih =>
    have hc : c < 128 := h c (by simp)
    simp only [utf8Encode, if_pos (show validCp c from ⟨by omega, by omega⟩),
      ih (fun x hx => h x (by simp [hx]))]
    simp [Except.map, utf8EncChar, if_pos hc]

theorem json_decode_ser (v : JVal) (hv : ValidJ v) :
    json_decode (ser v) = .ok v := by
  have hskip : skipWs (ser v) = ser v := by
    have := skipWs_ser v []
    simpa using this
  have hparse : parseVal ((ser v).length + 1) (ser v) = some (v, []) := by
    have := parseVal_ser ((ser v).length + 1) v [] hv (by omega) trivial
    simpa using this
  unfold json_decode
  simp only [hskip, hparse]
  rfl

/-- C3: with a JSON backend on the code-point-oriented runtime, `json_encode`
yields the finite list of byte chunks obtained by UTF-8-encoding each
encoder fragment (every chunk encode succeeds), UTF-8-decoding their
concatenation recovers the serialization text, and `json_decode` of that
text returns the original value. -/
theorem c3_json_roundtrip (v : JVal) (hv : ValidJ v) :
    ∃ chunks : List (List Nat),
      json_encode v = chunks.map Except.ok ∧
      decodeBytes .utf8 .strict chunks.flatten = .ok (ser v) ∧
      json_decode (ser v) = .ok v := by
  have hascii : ∀ b ∈ ser v, b < 128 := serAscii v
  have hfrag : ∀ frag ∈ iterenc v, ∀ b ∈ frag, b < 128 := by
    intro frag hf b hb
    exact hascii b (by
      show b ∈ (iterenc v).flatten
      exact List.mem_flatten.mpr ⟨frag, hf, hb⟩)
  refine ⟨iterenc v, ?_, ?_, json_decode_ser v hv⟩
  · unfold json_encode
    apply List.map_congr_left
    intro frag hf
    exact utf8Encode_ascii_ok frag (hfrag frag hf)
  · exact decodeBytes_ascii .utf8 .strict (ser v) (by simp) hascii

/-- Witness for C3 at the value from the spec's example, the one-entry
object mapping "k" to 1. -/
theorem c3_witness :
    ∃ chunks : List (List Nat),
      json_encode (.jobj [([107], .jint 1)]) = chunks.map Except.ok ∧
      decodeBytes .utf8 .strict chunks.flatten =
        .ok (ser (.jobj [([107], .jint 1)])) ∧
      json_decode (ser (.jobj [([107], .jint 1)])) =
        .ok (.jobj [([107], .jint 1)]) :=
  c3_json_roundtrip (.jobj [([107], .jint 1)])
    (ValidJ.vobj _
      (by
        intro kv hkv c hc
        simp only [List.mem_cons, List.not_mem_nil, or_false] at hkv
        subst hkv
        simp only [List.mem_cons, List.not_mem_nil, or_false] at hc
        subst hc
        decide)
      (by
        intro kv hkv
        simp only [List.mem_cons, List.not_mem_nil, or_false] at hkv
        subst hkv
        exact ValidJ.vint 1))
